import Mathlib

/-!
# go-stress-test: a shallow embedding of the load-test engine

The file embeds the parts of `windlant/go-stress-test` that its specification talks about:

* `internal/app/app.go`      : `validateConfig`
* `internal/target/http.go`  : `NewHTTP` (URL check, method default, header parsing)
* `internal/runner/runner.go`: the stop-condition selection at the top of `Run`, the two
  critical sections of a worker (budget test and outcome recording), the statistics block at the
  end of `Run`, and `printProgress`.

Conventions of the embedding.

* Go `int` and `time.Duration` are `Int`; the counters of the run only ever grow by one per
  request, so they stay far away from `2 ^ 63` and no wrap-around is modelled.
* Go `float64` values are rationals, and every float64 operation is the exact rational operation
  followed by `roundF64`, rounding to the nearest number with a 53 bit significand, ties to
  even. The exponent range is not modelled (no overflow to infinity, no subnormals) and a
  division by zero yields `0`: all values occurring below are `0` or have a magnitude between
  `2 ^ (-64)` and `2 ^ 64`.
* Go strings are lists of Unicode characters (well-formed UTF-8 text).
* An index expression on a slice returns `none` where Go would panic.
* Goroutines are modelled by interleaving: every critical section (a `mu.Lock()` ..
  `mu.Unlock()` block) is one atomic step of a transition system, and a schedule is a list of
  such steps.
-/

/-! ## float64 -/

namespace float64

/-- Round a rational to the nearest integer, ties to the even neighbour. -/
def roundHalfEven (m : ℚ) : ℤ :=
  let f := ⌊m⌋
  let d := m - f
  if d < 1/2 then f
  else if 1/2 < d then f + 1
  else if f % 2 = 0 then f else f + 1

/-- Round a positive rational to 53 significant bits: scale it into `[2^52, 2^53)`, round the
scaled value to an integer, scale back. -/
def roundPos (q : ℚ) : ℚ :=
  let e : ℤ := Int.log 2 q - 52
  (roundHalfEven (q / (2:ℚ) ^ e) : ℚ) * (2:ℚ) ^ e

/-- The float64 nearest to a rational (round to nearest, ties to even). -/
def roundF64 (q : ℚ) : ℚ :=
  if q = 0 then 0
  else if q < 0 then - roundPos (-q)
  else roundPos q

/-- Go conversion `float64(n)` of an integer. -/
def f64OfInt (n : ℤ) : ℚ := roundF64 n

/-- Go `a + b` on float64. -/
def f64add (a b : ℚ) : ℚ := roundF64 (a + b)

/-- Go `a * b` on float64. -/
def f64mul (a b : ℚ) : ℚ := roundF64 (a * b)

/-- Go `a / b` on float64 (for `b ≠ 0`). -/
def f64div (a b : ℚ) : ℚ := roundF64 (a / b)

/-- Go conversion `int(x)` of a float64: truncation toward zero. -/
def f64ToInt (x : ℚ) : ℤ := if 0 ≤ x then ⌊x⌋ else ⌈x⌉

/-- The constant `0.95` as a float64. -/
def lit95 : ℚ := roundF64 (95 / 100)

/-- The constant `0.99` as a float64. -/
def lit99 : ℚ := roundF64 (99 / 100)

/-- The constant `1.0`. -/
def lit1 : ℚ := 1

end float64

/-! ## Strings and maps -/

/-- Go strings, as lists of characters. -/
abbrev Str := List Char

namespace strings

/-- Go `unicode.IsSpace`: the Latin-1 spaces `\t \n \v \f \r`, space, U+0085, U+00A0, and the
other code points with the White_Space property. -/
def isSpace (c : Char) : Bool :=
  let n := c.toNat
  (9 ≤ n && n ≤ 13) || n == 32 || n == 133 || n == 160 || n == 5760 ||
  (8192 ≤ n && n ≤ 8202) || n == 8232 || n == 8233 || n == 8239 || n == 8287 || n == 12288

/-- Go `strings.TrimSpace`: drop the leading and the trailing white space. -/
def TrimSpace (s : Str) : Str :=
  ((s.dropWhile isSpace).reverse.dropWhile isSpace).reverse

/-- Go `strings.SplitN(s, sep, 2)` for a one-character separator: the text before the first
separator and the text after it, or the whole string alone when there is no separator. -/
def SplitN2 (s : Str) (sep : Char) : List Str :=
  if sep ∈ s then [s.takeWhile (fun c => c != sep), (s.dropWhile (fun c => c != sep)).drop 1]
  else [s]

/-- The string `t` is `s` without its leading and trailing white space: `s` is `l ++ t ++ r`
with only white space in `l` and in `r`, and `t` neither starts nor ends with white space. -/
def IsTrimOf (s t : Str) : Prop :=
  ∃ l r : Str, s = l ++ t ++ r ∧ (∀ c ∈ l, isSpace c = true) ∧ (∀ c ∈ r, isSpace c = true) ∧
    (∀ c, t.head? = some c → isSpace c = false) ∧
    (∀ c, t.getLast? = some c → isSpace c = false)

end strings

/-- Go `m[key] = value` on a `map[string]string` kept as an association list with distinct
keys: an existing binding is overwritten in place, a new key is added. -/
def mapSet : List (Str × Str) → Str → Str → List (Str × Str)
  | [], k, v => [(k, v)]
  | (k', v') :: m, k, v => if k' = k then (k, v) :: m else (k', v') :: mapSet m k v

/-- Go `m[key]` lookup (with the presence flag). -/
def mapGet : List (Str × Str) → Str → Option Str
  | [], _ => none
  | (k', v') :: m, k => if k' = k then some v' else mapGet m k

/-! ## package time -/

namespace time

/-- Go `time.Duration`: a signed count of nanoseconds. -/
abbrev Duration := Int

/-- Go `Duration.Milliseconds`: `int64(d) / 1e6`, truncated toward zero. -/
def Milliseconds (d : Duration) : Int := Int.tdiv d 1000000

/-- One second. -/
def Second : Duration := 1000000000

end time

/-! ## package config -/

namespace config

/-- The struct `config.Config`. -/
structure Config where
  URL : Str
  Method : Str
  Body : Str
  BodyFile : Str
  Headers : List Str
  Rate : Int
  Concurrency : Int
  Duration : time.Duration
  Total : Int
  Timeout : time.Duration
  Output : Str
  Quiet : Bool
  DisableKeepalive : Bool

end config

/-! ## package app -/

namespace app

/-- The errors of `validateConfig`, one per `errors.New` in its body. -/
inductive ConfigError where
  | urlRequired
  | rateNegative
  | concurrencyNotPositive
  | durationOrTotalRequired
  | timeoutNotPositive
  deriving DecidableEq, Repr

/-- The function `validateConfig` of `app.go`; `none` is the `nil` error. -/
def validateConfig (cfg : config.Config) : Option ConfigError :=
  if cfg.URL = [] then some .urlRequired
  else if cfg.Rate < 0 then some .rateNegative
  else if cfg.Concurrency ≤ 0 then some .concurrencyNotPositive
  else if cfg.Duration ≤ 0 ∧ cfg.Total ≤ 0 then some .durationOrTotalRequired
  else if cfg.Timeout ≤ 0 then some .timeoutNotPositive
  else none

end app

/-! ## package target -/

namespace target

/-- The struct `HTTPTarget`; the `http.Client` is kept as its two configured settings. -/
structure HTTPTarget where
  url : Str
  method : Str
  headers : List (Str × Str)
  body : List Nat
  timeout : time.Duration
  disableKeepAlives : Bool
  deriving DecidableEq, Repr

/-- The struct `target.Result` (the `Error` field carries no information used by the runner). -/
structure Result where
  Success : Bool
  StatusCode : Int
  Latency : time.Duration
  deriving DecidableEq, Repr

/-- The errors of `NewHTTP`, one per `fmt.Errorf` in its body. -/
inductive TargetError where
  | urlRequired
  | invalidHeaderFormat (h : Str)
  | emptyHeaderKey (h : Str)
  deriving DecidableEq, Repr

/-- The header loop of `NewHTTP`, run over the remaining entries with the map built so far. -/
def parseHeaders : List Str → List (Str × Str) → Except TargetError (List (Str × Str))
  | [], headers => .ok headers
  | h :: rest, headers =>
    let parts := strings.SplitN2 h ':'
    if parts.length ≠ 2 then .error (.invalidHeaderFormat h)
    else
      let key := strings.TrimSpace (parts.getD 0 [])
      let value := strings.TrimSpace (parts.getD 1 [])
      if key = [] then .error (.emptyHeaderKey h)
      else parseHeaders rest (mapSet headers key value)

/-- The constructor `NewHTTP` of `http.go`. -/
def NewHTTP (url method : Str) (headerSlice : List Str) (body : List Nat)
    (timeout : time.Duration) (disableKeepalive : Bool) : Except TargetError HTTPTarget :=
  if url = [] then .error .urlRequired
  else
    let method := if method = [] then ['G', 'E', 'T'] else method
    match parseHeaders headerSlice [] with
    | .error e => .error e
    | .ok headers =>
      .ok { url := url, method := method, headers := headers, body := body,
            timeout := timeout, disableKeepAlives := disableKeepalive }

/-- An entry `h` of the header list reads as key `k` and value `v`: `h` is `pre ++ ":" ++ post`
with no colon in `pre`, `k` is `pre` without its surrounding white space and `v` is `post`
without its surrounding white space. -/
def IsEntry (h k v : Str) : Prop :=
  ∃ pre post : Str, h = pre ++ ':' :: post ∧ ':' ∉ pre ∧
    strings.IsTrimOf pre k ∧ strings.IsTrimOf post v

end target

/-! ## package runner -/

namespace runner

open float64

/-- The struct `runner.Result`. -/
structure Result where
  TotalRequests : Int
  Successful : Int
  Failed : Int
  SuccessRate : ℚ
  AvgLatencyMs : ℚ
  MinLatencyMs : ℚ
  MaxLatencyMs : ℚ
  P95LatencyMs : ℚ
  P99LatencyMs : ℚ
  RPS : ℚ
  Duration : time.Duration
  deriving DecidableEq

/-- How the context of a run was built. -/
inductive StopMode where
  | withTimeout (d : time.Duration)
  | withCancel
  deriving DecidableEq, Repr

/-- The ways `Run` ends without a result: its own error (line 43), the panic of
`time.NewTicker` on a non-positive interval (line 65), and the out-of-range panic of an index
expression. -/
inductive RunError where
  | noStopCondition
  | nonPositiveTickerInterval
  | indexOutOfRange
  deriving DecidableEq, Repr

/-- The stop-condition selection at the top of `Run` (lines 38–44). -/
def stopCondition (duration : time.Duration) (total : Int) : Except RunError StopMode :=
  if duration > 0 then .ok (.withTimeout duration)
  else if total > 0 then .ok .withCancel
  else .error .noStopCondition

/-- The variables of `Run` that are shared by the workers under the mutex `mu`. -/
structure Shared where
  totalReqs : Int
  success : Int
  failed : Int
  latencies : List time.Duration
  sentCount : Int
  deriving DecidableEq, Repr

/-- The shared state at the start of a run (lines 51–55). -/
def Shared.init : Shared :=
  { totalReqs := 0, success := 0, failed := 0, latencies := [], sentCount := 0 }

/-- The budget test of a worker (lines 124–131), one critical section. The flag tells whether
the worker cancels the run and returns; otherwise it goes on to send a request. -/
def budgetCheck (total : Int) (s : Shared) : Shared × Bool :=
  if total > 0 ∧ s.sentCount ≥ total then (s, true)
  else ({ s with sentCount := s.sentCount + 1 }, false)

/-- The recording of one outcome by a worker (lines 138–146), one critical section. -/
def record (s : Shared) (res : target.Result) : Shared :=
  { s with
    totalReqs := s.totalReqs + 1
    success := if res.Success then s.success + 1 else s.success
    failed := if res.Success then s.failed else s.failed + 1
    latencies := s.latencies ++ [res.Latency] }

/-- The shared state after recording a sequence of outcomes, in order. -/
def recordAll (s : Shared) (outs : List target.Result) : Shared :=
  outs.foldl record s

/-- Where a worker goroutine is in its loop. -/
inductive Phase where
  | idle
  | inFlight
  | exited
  deriving DecidableEq, Repr

/-- The state of a run: the shared variables, whether the context is done, the position of
every worker, and the number of calls of `tgt.Send` made so far. -/
structure Pool where
  shared : Shared
  cancelled : Bool
  workers : List Phase
  dispatched : Nat
  deriving DecidableEq, Repr

/-- The atomic steps of a run. -/
inductive Event where
  | deadline
  | observeDone (w : Nat)
  | budget (w : Nat)
  | complete (w : Nat) (res : Option target.Result)
  deriving DecidableEq, Repr

/-- The state in which the workers are released by the start signal. -/
def Pool.init (concurrency : Int) : Pool :=
  { shared := Shared.init, cancelled := false,
    workers := List.replicate concurrency.toNat Phase.idle, dispatched := 0 }

/-- One step of a run. A step that is not enabled leaves the state as it is.
* `deadline`: the timer of `context.WithTimeout` fires;
* `observeDone w`: worker `w` finds `ctx.Done()` closed in its `select` and returns;
* `budget w`: worker `w` passes the `select` and runs the budget test, then either cancels and
  returns or calls `tgt.Send`;
* `complete w res`: the call of `tgt.Send` of worker `w` returns; a nil result is skipped, any
  other is recorded. -/
def step (mode : StopMode) (total : Int) (p : Pool) : Event → Pool
  | .deadline =>
    match mode with
    | .withTimeout _ => { p with cancelled := true }
    | .withCancel => p
  | .observeDone w =>
    if p.workers.get? w = some Phase.idle ∧ p.cancelled = true then
      { p with workers := p.workers.set w Phase.exited }
    else p
  | .budget w =>
    if p.workers.get? w = some Phase.idle then
      let r := budgetCheck total p.shared
      if r.2 then
        { p with shared := r.1, cancelled := true, workers := p.workers.set w Phase.exited }
      else
        { p with shared := r.1, workers := p.workers.set w Phase.inFlight,
                 dispatched := p.dispatched + 1 }
    else p
  | .complete w res =>
    if p.workers.get? w = some Phase.inFlight then
      match res with
      | none => { p with workers := p.workers.set w Phase.idle }
      | some r => { p with shared := record p.shared r, workers := p.workers.set w Phase.idle }
    else p

/-- The state after a schedule. -/
def runPool (mode : StopMode) (total : Int) (p : Pool) (sched : List Event) : Pool :=
  sched.foldl (step mode total) p

/-- Go `sort.Slice(s, func(i, j int) bool { return s[i] < s[j] })`: the slice in ascending
order. -/
def sortSlice (l : List time.Duration) : List time.Duration :=
  l.insertionSort (fun a b => a ≤ b)

/-- The index expression `s[i]`; `none` is the out-of-range panic. -/
def index (s : List time.Duration) (i : Int) : Option time.Duration :=
  if 0 ≤ i ∧ i < s.length then s.get? i.toNat else none

/-- The end of `Run` (lines 165–218): the statistics block and the construction of the
`Result`, from the final shared state, the measured run time in seconds (`durationSec`) and as
a duration (`realDuration`). -/
def report (s : Shared) (durationSec : ℚ) (realDuration : time.Duration) : Option Result :=
  let rps := f64div (f64OfInt s.totalReqs) durationSec
  if s.totalReqs > 0 then
    let sortedLatencies := sortSlice s.latencies
    (index sortedLatencies 0).bind fun min =>
    (index sortedLatencies ((sortedLatencies.length : Int) - 1)).bind fun max =>
    let sum := sortedLatencies.foldl (fun sum d => f64add sum (f64OfInt (time.Milliseconds d))) 0
    let avgLatencyMs := f64div sum (f64OfInt (sortedLatencies.length : Int))
    let minLatencyMs := f64OfInt (time.Milliseconds min)
    let maxLatencyMs := f64OfInt (time.Milliseconds max)
    let n : Int := sortedLatencies.length
    let p95Idx := f64ToInt (f64mul (f64OfInt n) lit95)
    let p95Idx := if p95Idx ≥ n then n - 1 else p95Idx
    let p99Idx := f64ToInt (f64mul (f64OfInt n) lit99)
    let p99Idx := if p99Idx ≥ n then n - 1 else p99Idx
    (index sortedLatencies p95Idx).bind fun d95 =>
    (index sortedLatencies p99Idx).bind fun d99 =>
    let p95LatencyMs := f64OfInt (time.Milliseconds d95)
    let p99LatencyMs := f64OfInt (time.Milliseconds d99)
    let successRate := f64div (f64OfInt s.success) (f64OfInt s.totalReqs)
    some { TotalRequests := s.totalReqs, Successful := s.success, Failed := s.failed,
           SuccessRate := successRate, AvgLatencyMs := avgLatencyMs,
           MinLatencyMs := minLatencyMs, MaxLatencyMs := maxLatencyMs,
           P95LatencyMs := p95LatencyMs, P99LatencyMs := p99LatencyMs,
           RPS := rps, Duration := realDuration }
  else
    some { TotalRequests := s.totalReqs, Successful := s.success, Failed := s.failed,
           SuccessRate := 0, AvgLatencyMs := 0, MinLatencyMs := 0, MaxLatencyMs := 0,
           P95LatencyMs := 0, P99LatencyMs := 0, RPS := rps, Duration := realDuration }

/-- The main goroutine passes `<-ctx.Done()` and `wgWorkers.Wait()` (lines 159–160): the
context is done and every worker has returned. -/
def Pool.finished (p : Pool) : Bool :=
  p.cancelled && p.workers.all (fun w => decide (w = Phase.exited))

/-- The function `Run`, for a given schedule of its goroutines and a given measured run time:
the number of requests sent, and how the call stands at the end of the schedule. `none` means
that the call has not returned: the main goroutine is still blocked at line 159 or 160.
Otherwise the call has ended, with the error of line 43, with the panic of
`time.NewTicker(time.Second / time.Duration(rate))` when `rate > 0` makes that interval
non-positive, or with the result of the statistics block. The target is represented by the
outcomes carried by the `complete` steps of the schedule. With `quiet` unset a further
goroutine prints progress: it only reads the shared variables, under the mutex, and returns
once the context is done. -/
def Run (rate concurrency : Int) (duration : time.Duration) (total : Int) (_quiet : Bool)
    (sched : List Event) (durationSec : ℚ) (realDuration : time.Duration) :
    Nat × Option (Except RunError Result) :=
  match stopCondition duration total with
  | .error e => (0, some (.error e))
  | .ok mode =>
    if rate > 0 ∧ Int.tdiv time.Second rate ≤ 0 then
      (0, some (.error .nonPositiveTickerInterval))
    else
      let p := runPool mode total (Pool.init concurrency) sched
      if p.finished then
        match report p.shared durationSec realDuration with
        | none => (p.dispatched, some (.error .indexOutOfRange))
        | some r => (p.dispatched, some (.ok r))
      else (p.dispatched, none)

/-- The values `printProgress` passes to `fmt.Printf`. In the line for an empty sample the
five latency figures are the literal text `0ms`. -/
structure ProgressLine where
  workersReady : Int
  totalWorkers : Int
  currentRPS : ℚ
  total : Int
  successRate : ℚ
  failed : Int
  avg : ℚ
  min : Int
  max : Int
  p95 : ℚ
  p99 : ℚ
  deriving DecidableEq

/-- The function `printProgress`; `sinceStart` is the value of
`time.Since(startTime).Seconds()` at the call. The printed success figure is
`successRate * 100`. -/
def printProgress (sinceStart : ℚ) (total success failed : Int)
    (latencies : List time.Duration) (workersReady totalWorkers : Int) : Option ProgressLine :=
  let elapsed := if sinceStart < lit1 then lit1 else sinceStart
  let currentRPS := f64div (f64OfInt success) elapsed
  let successRate := if total > 0 then f64div (f64OfInt success) (f64OfInt total) else 0
  if total = 0 then
    some { workersReady := workersReady, totalWorkers := totalWorkers, currentRPS := currentRPS,
           total := total, successRate := successRate, failed := failed,
           avg := 0, min := 0, max := 0, p95 := 0, p99 := 0 }
  else
    let sorted := sortSlice latencies
    (index sorted 0).bind fun min =>
    (index sorted ((sorted.length : Int) - 1)).bind fun max =>
    let sum := sorted.foldl (fun sum d => f64add sum (f64OfInt (time.Milliseconds d))) 0
    let avg := f64div sum (f64OfInt (sorted.length : Int))
    let n : Int := sorted.length
    let p95Idx := f64ToInt (f64mul (f64OfInt n) lit95)
    let p95Idx := if p95Idx ≥ n then n - 1 else p95Idx
    let p99Idx := f64ToInt (f64mul (f64OfInt n) lit99)
    let p99Idx := if p99Idx ≥ n then n - 1 else p99Idx
    (index sorted p95Idx).bind fun d95 =>
    (index sorted p99Idx).bind fun d99 =>
    let p95 := f64OfInt (time.Milliseconds d95)
    let p99 := f64OfInt (time.Milliseconds d99)
    some { workersReady := workersReady, totalWorkers := totalWorkers, currentRPS := currentRPS,
           total := total, successRate := successRate, failed := failed,
           avg := avg, min := time.Milliseconds min, max := time.Milliseconds max,
           p95 := p95, p99 := p99 }

end runner

/-! ## Lemmas on the float64 model -/

namespace float64

theorem roundHalfEven_floor_le (m : ℚ) : ⌊m⌋ ≤ roundHalfEven m := by
  unfold roundHalfEven
  simp only
  split_ifs <;> omega

theorem roundHalfEven_le_floor_succ (m : ℚ) : roundHalfEven m ≤ ⌊m⌋ + 1 := by
  unfold roundHalfEven
  simp only
  split_ifs <;> omega

theorem roundHalfEven_le (m : ℚ) : (roundHalfEven m : ℚ) ≤ m + 1/2 := by
  have h1 := Int.floor_le m
  unfold roundHalfEven
  simp only
  split_ifs with h h' h''
  · linarith
  · push_cast; linarith
  · linarith
  · push_cast; linarith

theorem roundHalfEven_ge (m : ℚ) : m - 1/2 ≤ (roundHalfEven m : ℚ) := by
  have h1 := Int.floor_le m
  have h2 := Int.lt_floor_add_one m
  unfold roundHalfEven
  simp only
  split_ifs with h h' h''
  · linarith
  · push_cast; linarith
  · linarith
  · push_cast; linarith

theorem roundHalfEven_intCast (k : ℤ) : roundHalfEven (k : ℚ) = k := by
  unfold roundHalfEven
  simp

theorem roundHalfEven_eq_of_near (m : ℚ) (k : ℤ) (h1 : m - 1/2 < k) (h2 : (k : ℚ) < m + 1/2) :
    roundHalfEven m = k := by
  have a := roundHalfEven_le m
  have b := roundHalfEven_ge m
  have c : ((roundHalfEven m : ℤ) : ℚ) < (k : ℚ) + 1 := by linarith
  have d : (k : ℚ) < (roundHalfEven m : ℚ) + 1 := by linarith
  have c' : roundHalfEven m < k + 1 := by exact_mod_cast c
  have d' : k < roundHalfEven m + 1 := by exact_mod_cast d
  omega

theorem roundHalfEven_mono {a b : ℚ} (h : a ≤ b) : roundHalfEven a ≤ roundHalfEven b := by
  rcases (Int.floor_mono h).lt_or_eq with hlt | heq
  · have := roundHalfEven_le_floor_succ a
    have := roundHalfEven_floor_le b
    omega
  · unfold roundHalfEven
    simp only
    rw [heq]
    have hd : a - ⌊b⌋ ≤ b - ⌊b⌋ := by linarith
    split_ifs <;> first | omega | (exfalso; linarith)

theorem two_zpow_pos (e : ℤ) : (0:ℚ) < (2:ℚ) ^ e := zpow_pos (by norm_num) e

/-- The scaled significand of a positive rational lies in `[2^52, 2^53)`. -/
theorem scaled_bounds {q : ℚ} (hq : 0 < q) :
    (2:ℚ) ^ (52:ℕ) ≤ q / (2:ℚ) ^ (Int.log 2 q - 52) ∧
      q / (2:ℚ) ^ (Int.log 2 q - 52) < (2:ℚ) ^ (53:ℕ) := by
  have h1 : ((2:ℕ):ℚ) ^ Int.log 2 q ≤ q := Int.zpow_log_le_self (by norm_num) hq
  have h2 : q < ((2:ℕ):ℚ) ^ (Int.log 2 q + 1) := Int.lt_zpow_succ_log_self (by norm_num) q
  have hp := two_zpow_pos (Int.log 2 q - 52)
  have e1 : ((2:ℕ):ℚ) ^ Int.log 2 q = (2:ℚ) ^ (52:ℕ) * (2:ℚ) ^ (Int.log 2 q - 52) := by
    rw [← zpow_natCast, ← zpow_add₀ (by norm_num)]; congr 1; push_cast; ring
  have e2 : ((2:ℕ):ℚ) ^ (Int.log 2 q + 1) = (2:ℚ) ^ (53:ℕ) * (2:ℚ) ^ (Int.log 2 q - 52) := by
    rw [← zpow_natCast, ← zpow_add₀ (by norm_num)]; congr 1; push_cast; ring
  rw [e1] at h1
  rw [e2] at h2
  exact ⟨(le_div_iff₀ hp).2 h1, (div_lt_iff₀ hp).2 h2⟩

theorem roundPos_ge {q : ℚ} (hq : 0 < q) :
    (2:ℚ) ^ (52:ℕ) * (2:ℚ) ^ (Int.log 2 q - 52) ≤ roundPos q := by
  unfold roundPos
  simp only
  have hp := two_zpow_pos (Int.log 2 q - 52)
  have h := roundHalfEven_mono (scaled_bounds hq).1
  have e : ((2:ℚ) ^ (52:ℕ)) = (((2:ℤ) ^ (52:ℕ) : ℤ) : ℚ) := by push_cast; rfl
  rw [e, roundHalfEven_intCast] at h
  have h' : (((2:ℤ) ^ (52:ℕ) : ℤ) : ℚ) ≤ (roundHalfEven (q / (2:ℚ) ^ (Int.log 2 q - 52)) : ℚ) := by
    exact_mod_cast h
  rw [e]
  exact mul_le_mul_of_nonneg_right h' hp.le

theorem roundPos_le {q : ℚ} (hq : 0 < q) :
    roundPos q ≤ (2:ℚ) ^ (53:ℕ) * (2:ℚ) ^ (Int.log 2 q - 52) := by
  unfold roundPos
  simp only
  have hp := two_zpow_pos (Int.log 2 q - 52)
  have h := roundHalfEven_mono (scaled_bounds hq).2.le
  have e : ((2:ℚ) ^ (53:ℕ)) = (((2:ℤ) ^ (53:ℕ) : ℤ) : ℚ) := by push_cast; rfl
  rw [e, roundHalfEven_intCast] at h
  have h' : (roundHalfEven (q / (2:ℚ) ^ (Int.log 2 q - 52)) : ℚ) ≤ (((2:ℤ) ^ (53:ℕ) : ℤ) : ℚ) := by
    exact_mod_cast h
  rw [e]
  exact mul_le_mul_of_nonneg_right h' hp.le

theorem roundPos_pos {q : ℚ} (hq : 0 < q) : 0 < roundPos q :=
  lt_of_lt_of_le (mul_pos (by positivity) (two_zpow_pos _)) (roundPos_ge hq)

theorem roundPos_mono {a b : ℚ} (ha : 0 < a) (hab : a ≤ b) : roundPos a ≤ roundPos b := by
  have hb : 0 < b := lt_of_lt_of_le ha hab
  rcases (Int.log_mono_right (b := 2) ha hab).lt_or_eq with hlt | heq
  · calc roundPos a ≤ (2:ℚ) ^ (53:ℕ) * (2:ℚ) ^ (Int.log 2 a - 52) := roundPos_le ha
      _ = (2:ℚ) ^ (52:ℕ) * (2:ℚ) ^ (Int.log 2 a + 1 - 52) := by
          rw [← zpow_natCast, ← zpow_natCast, ← zpow_add₀ (by norm_num), ← zpow_add₀ (by norm_num)]
          congr 1; push_cast; ring
      _ ≤ (2:ℚ) ^ (52:ℕ) * (2:ℚ) ^ (Int.log 2 b - 52) := by
          apply mul_le_mul_of_nonneg_left _ (by positivity)
          exact zpow_le_zpow_right₀ (by norm_num) (by omega)
      _ ≤ roundPos b := roundPos_ge hb
  · unfold roundPos
    simp only
    rw [heq]
    have hp := two_zpow_pos (Int.log 2 b - 52)
    apply mul_le_mul_of_nonneg_right _ hp.le
    have : a / (2:ℚ) ^ (Int.log 2 b - 52) ≤ b / (2:ℚ) ^ (Int.log 2 b - 52) :=
      div_le_div_of_nonneg_right hab hp.le
    exact_mod_cast roundHalfEven_mono this

theorem roundF64_zero : roundF64 0 = 0 := by
  simp [roundF64]

theorem roundF64_of_pos {q : ℚ} (hq : 0 < q) : roundF64 q = roundPos q := by
  simp [roundF64, hq.ne', not_lt.2 hq.le]

theorem roundF64_of_neg {q : ℚ} (hq : q < 0) : roundF64 q = - roundPos (-q) := by
  simp [roundF64, hq.ne, hq]

theorem roundF64_neg (q : ℚ) : roundF64 (-q) = - roundF64 q := by
  rcases lt_trichotomy q 0 with h | h | h
  · rw [roundF64_of_neg h, roundF64_of_pos (neg_pos.2 h), neg_neg]
  · subst h; simp [roundF64_zero]
  · rw [roundF64_of_pos h, roundF64_of_neg (neg_neg_of_pos h), neg_neg]

theorem roundF64_nonneg {q : ℚ} (hq : 0 ≤ q) : 0 ≤ roundF64 q := by
  rcases hq.lt_or_eq with h | h
  · rw [roundF64_of_pos h]; exact (roundPos_pos h).le
  · rw [← h, roundF64_zero]

theorem roundF64_mono {a b : ℚ} (hab : a ≤ b) : roundF64 a ≤ roundF64 b := by
  rcases lt_trichotomy a 0 with ha | ha | ha
  · rcases lt_or_le b 0 with hb | hb
    · rw [roundF64_of_neg ha, roundF64_of_neg hb]
      have := roundPos_mono (neg_pos.2 hb) (neg_le_neg hab)
      linarith
    · have h1 := roundF64_nonneg hb
      rw [roundF64_of_neg ha]
      have := roundPos_pos (neg_pos.2 ha)
      linarith
  · subst ha
    rw [roundF64_zero]
    exact roundF64_nonneg hab
  · rw [roundF64_of_pos ha, roundF64_of_pos (lt_of_lt_of_le ha hab)]
    exact roundPos_mono ha hab

theorem roundPos_exact {q : ℚ} (z : ℤ) (hz : q / (2:ℚ) ^ (Int.log 2 q - 52) = z) :
    roundPos q = q := by
  unfold roundPos
  simp only
  rw [hz, roundHalfEven_intCast, ← hz]
  exact div_mul_cancel₀ q (two_zpow_pos _).ne'

theorem log_lt_of_lt {q : ℚ} (hq : 0 < q) (m : ℕ) (h : q < (2:ℚ) ^ m) : Int.log 2 q < m := by
  apply (Int.lt_zpow_iff_log_lt (b := 2) (by norm_num) hq).1
  rw [zpow_natCast]
  exact_mod_cast h

/-- For an exponent at most 52 the scaling factor is a natural power of two. -/
theorem scale_eq_mul {L : ℤ} (hL : L ≤ 52) (q : ℚ) :
    q / (2:ℚ) ^ (L - 52) = q * (2:ℚ) ^ (52 - L).toNat := by
  have e : L - 52 = -(((52 - L).toNat : ℕ) : ℤ) := by
    rw [Int.toNat_of_nonneg (by omega)]; ring
  rw [e, zpow_neg, zpow_natCast, div_eq_mul_inv, inv_inv]

theorem roundPos_natCast (k : ℕ) (h0 : 0 < k) (hk : k ≤ 2 ^ 53) : roundPos (k : ℚ) = k := by
  have hq : (0:ℚ) < k := by exact_mod_cast h0
  have hlt : Int.log 2 (k:ℚ) < (54:ℕ) := by
    apply log_lt_of_lt hq
    have : (k:ℚ) ≤ 2 ^ 53 := by exact_mod_cast hk
    linarith [show (2:ℚ)^53 < 2^54 by norm_num]
  rcases (show Int.log 2 (k:ℚ) ≤ 52 ∨ Int.log 2 (k:ℚ) = 53 by omega) with hL | hL
  · apply roundPos_exact ((k : ℤ) * 2 ^ (52 - Int.log 2 (k:ℚ)).toNat)
    rw [scale_eq_mul hL]
    push_cast
    rfl
  · have h1 : ((2:ℕ):ℚ) ^ Int.log 2 (k:ℚ) ≤ k := Int.zpow_log_le_self (by norm_num) hq
    rw [hL] at h1
    have h2 : (2:ℚ) ^ (53:ℕ) ≤ k := by
      rw [← zpow_natCast]; exact_mod_cast h1
    have h3 : (2:ℕ) ^ 53 ≤ k := by exact_mod_cast h2
    have hk' : k = 2 ^ 53 := le_antisymm hk h3
    apply roundPos_exact ((2:ℤ) ^ 52)
    rw [hL, hk']
    norm_num

theorem roundF64_intCast (k : ℤ) (hk : |k| ≤ 2 ^ 53) : roundF64 (k : ℚ) = k := by
  have hb : k.natAbs ≤ 2 ^ 53 := by
    have h3 : ((k.natAbs : ℕ) : ℤ) ≤ 2 ^ 53 := by rw [Int.natCast_natAbs]; exact hk
    exact_mod_cast h3
  rcases lt_trichotomy k 0 with h | h | h
  · have hq : (k : ℚ) < 0 := by exact_mod_cast h
    have e : ((k.natAbs : ℕ) : ℚ) = -(k:ℚ) := by
      rw [Nat.cast_natAbs, abs_of_neg h]; push_cast; rfl
    rw [roundF64_of_neg hq, ← e, roundPos_natCast _ (by omega) hb, e]
    ring
  · subst h; simp [roundF64_zero]
  · have hq : (0 : ℚ) < k := by exact_mod_cast h
    have e : ((k.natAbs : ℕ) : ℚ) = (k:ℚ) := by
      rw [Nat.cast_natAbs, abs_of_pos h]
    rw [roundF64_of_pos hq, ← e, roundPos_natCast _ (by omega) hb]

theorem log_eq_of_bounds {q : ℚ} (hq : 0 < q) (L : ℤ) (h1 : (2:ℚ) ^ L ≤ q)
    (h2 : q < (2:ℚ) ^ (L + 1)) : Int.log 2 q = L := by
  have a : L ≤ Int.log 2 q :=
    (Int.zpow_le_iff_le_log (b := 2) (by norm_num) hq).1 (by exact_mod_cast h1)
  have b : Int.log 2 q < L + 1 :=
    (Int.lt_zpow_iff_log_lt (b := 2) (by norm_num) hq).1 (by exact_mod_cast h2)
  omega

/-- Truncating the correctly rounded product `n * c` gives the exact integer quotient `a * n / b`
whenever `c` is a float64 just below `a / b` and `n` is below `2 ^ 47`. -/
theorem floor_roundPos_mul (n a b : ℕ) (c δ : ℚ) (hn : 0 < n) (hn47 : n < 2 ^ 47)
    (hb : 0 < b) (hb' : b < 128) (hc : c = (a : ℚ) / b - δ) (hδ : 0 ≤ δ)
    (hδc : δ * 2 ^ 54 ≤ c) (hc0 : 0 < c) (hc1 : c ≤ 1) :
    ⌊roundPos ((n : ℚ) * c)⌋ = ((a * n / b : ℕ) : ℤ) := by
  have hnq : (0:ℚ) < n := by exact_mod_cast hn
  have hbq : (0:ℚ) < b := by exact_mod_cast hb
  have hx : 0 < (n:ℚ) * c := mul_pos hnq hc0
  have hxn : (n:ℚ) * c < (2:ℚ) ^ 47 := by
    have h1 : (n:ℚ) * c ≤ n := by nlinarith
    have h2 : (n:ℚ) < 2 ^ 47 := by exact_mod_cast hn47
    linarith
  have hL : Int.log 2 ((n:ℚ) * c) < (47:ℕ) := log_lt_of_lt hx 47 hxn
  have hL52 : Int.log 2 ((n:ℚ) * c) ≤ 52 := by omega
  obtain ⟨s, hs⟩ : ∃ s : ℕ, s = (52 - Int.log 2 ((n:ℚ) * c)).toNat := ⟨_, rfl⟩
  have hs6 : 6 ≤ s := by omega
  have hK64 : (64:ℚ) ≤ (2:ℚ) ^ s := by
    have : (2:ℚ) ^ 6 ≤ (2:ℚ) ^ s := pow_le_pow_right₀ (by norm_num) hs6
    linarith [show (2:ℚ)^6 = 64 by norm_num]
  have hK0 : (0:ℚ) < (2:ℚ) ^ s := by positivity
  have hsc := (scaled_bounds hx).2
  rw [scale_eq_mul hL52, ← hs] at hsc
  have hval : roundPos ((n:ℚ) * c) = (roundHalfEven ((n:ℚ) * c * (2:ℚ) ^ s) : ℚ) / (2:ℚ) ^ s := by
    unfold roundPos
    simp only
    rw [scale_eq_mul hL52, ← hs]
    have e : Int.log 2 ((n:ℚ) * c) - 52 = -((s : ℕ) : ℤ) := by
      rw [hs, Int.toNat_of_nonneg (by omega)]; ring
    rw [e, zpow_neg, zpow_natCast, div_eq_mul_inv]
  obtain ⟨k, hk⟩ : ∃ k : ℕ, k = a * n / b := ⟨_, rfl⟩
  obtain ⟨r, hr'⟩ : ∃ r : ℕ, r = a * n % b := ⟨_, rfl⟩
  rw [← hk]
  have hdm : (a : ℚ) * n = (b : ℚ) * k + r := by
    have := (Nat.div_add_mod (a * n) b).symm
    rw [← hk, ← hr'] at this
    exact_mod_cast this
  have hr : (r : ℚ) ≤ (b : ℚ) - 1 := by
    have h' : r + 1 ≤ b := by rw [hr']; exact Nat.mod_lt _ hb
    have : ((r + 1 : ℕ) : ℚ) ≤ (b : ℚ) := by exact_mod_cast h'
    push_cast at this
    linarith
  have hr0 : (0:ℚ) ≤ (r : ℚ) := Nat.cast_nonneg _
  obtain ⟨t, ht⟩ : ∃ t : ℚ, t = (r : ℚ) / b := ⟨_, rfl⟩
  have hxe : (n:ℚ) * c = k + t - n * δ := by
    rw [hc, ht, mul_sub]
    have : (n:ℚ) * ((a:ℚ) / b) = ((a:ℚ) * n) / b := by ring
    rw [this, hdm]
    field_simp
    ring
  have ht0 : 0 ≤ t := by rw [ht]; exact div_nonneg hr0 hbq.le
  have ht1 : t ≤ 1 - 1 / b := by
    rw [ht, div_le_iff₀ hbq]
    have : (1 - 1 / (b:ℚ)) * b = b - 1 := by field_simp
    rw [this]; exact hr
  have hb128 : (b:ℚ) < 128 := by exact_mod_cast hb'
  have hKb : (1:ℚ) / 2 < (2:ℚ) ^ s * (1 / b) := by
    rw [mul_one_div, lt_div_iff₀ hbq]
    linarith
  have hnd : (n:ℚ) * δ * (2:ℚ) ^ s < 1 / 2 := by
    have h1 : (n:ℚ) * (δ * 2 ^ 54) ≤ n * c := mul_le_mul_of_nonneg_left hδc hnq.le
    have h2 : (n:ℚ) * (δ * 2 ^ 54) * (2:ℚ) ^ s ≤ n * c * (2:ℚ) ^ s :=
      mul_le_mul_of_nonneg_right h1 hK0.le
    have h3 : (n:ℚ) * δ * (2:ℚ) ^ s * 2 ^ 54 < (2:ℚ) ^ 53 := by
      calc (n:ℚ) * δ * (2:ℚ) ^ s * 2 ^ 54 = (n:ℚ) * (δ * 2 ^ 54) * (2:ℚ) ^ s := by ring
        _ ≤ n * c * (2:ℚ) ^ s := h2
        _ < (2:ℚ) ^ (53:ℕ) := hsc
    norm_num at h3 ⊢
    linarith
  have hnd0 : 0 ≤ (n:ℚ) * δ * (2:ℚ) ^ s := by positivity
  have hxK : (n:ℚ) * c * (2:ℚ) ^ s = k * (2:ℚ) ^ s + t * (2:ℚ) ^ s - n * δ * (2:ℚ) ^ s := by
    rw [hxe]; ring
  have htK0 : 0 ≤ t * (2:ℚ) ^ s := mul_nonneg ht0 hK0.le
  have htK1 : t * (2:ℚ) ^ s ≤ (2:ℚ) ^ s - (2:ℚ) ^ s * (1 / b) := by
    have := mul_le_mul_of_nonneg_right ht1 hK0.le
    have e : (1 - 1 / (b:ℚ)) * (2:ℚ) ^ s = (2:ℚ) ^ s - (2:ℚ) ^ s * (1 / b) := by ring
    rw [e] at this
    exact this
  have hup := roundHalfEven_le ((n:ℚ) * c * (2:ℚ) ^ s)
  have hlo := roundHalfEven_ge ((n:ℚ) * c * (2:ℚ) ^ s)
  obtain ⟨R, hR⟩ : ∃ R : ℤ, R = roundHalfEven ((n:ℚ) * c * (2:ℚ) ^ s) := ⟨_, rfl⟩
  rw [← hR] at hup hlo
  have hlo' : (k : ℚ) * (2:ℚ) ^ s ≤ (R : ℚ) := by
    have h1 : (k : ℚ) * (2:ℚ) ^ s - 1 < (R : ℚ) := by linarith
    have h2 : ((k : ℤ) * (2:ℤ) ^ s - 1 : ℤ) < R := by
      have e : ((((k : ℤ) * (2:ℤ) ^ s - 1 : ℤ)) : ℚ) = (k : ℚ) * (2:ℚ) ^ s - 1 := by push_cast; rfl
      have : ((((k : ℤ) * (2:ℤ) ^ s - 1 : ℤ)) : ℚ) < (R : ℚ) := by rw [e]; exact h1
      exact_mod_cast this
    have h3 : (k : ℤ) * (2:ℤ) ^ s ≤ R := by omega
    have e : ((((k : ℤ) * (2:ℤ) ^ s : ℤ)) : ℚ) = (k : ℚ) * (2:ℚ) ^ s := by push_cast; rfl
    rw [← e]
    exact_mod_cast h3
  have hup' : (R : ℚ) < ((k : ℚ) + 1) * (2:ℚ) ^ s := by
    have : ((k : ℚ) + 1) * (2:ℚ) ^ s = k * (2:ℚ) ^ s + (2:ℚ) ^ s := by ring
    rw [this]
    linarith
  rw [hval, ← hR, Int.floor_eq_iff]
  push_cast
  constructor
  · rw [le_div_iff₀ hK0]
    exact hlo'
  · rw [div_lt_iff₀ hK0]
    exact hup'

theorem roundPos_eq_of_near {q : ℚ} (hq : 0 < q) (L : ℤ) (k : ℤ) (h1 : (2:ℚ) ^ L ≤ q)
    (h2 : q < (2:ℚ) ^ (L + 1)) (h3 : q / (2:ℚ) ^ (L - 52) - 1 / 2 < k)
    (h4 : (k : ℚ) < q / (2:ℚ) ^ (L - 52) + 1 / 2) : roundPos q = k * (2:ℚ) ^ (L - 52) := by
  unfold roundPos
  simp only
  rw [log_eq_of_bounds hq L h1 h2, roundHalfEven_eq_of_near _ k h3 h4]

theorem lit95_eq : lit95 = 8556839292003942 / 2 ^ 53 := by
  unfold lit95
  rw [roundF64_of_pos (by norm_num)]
  rw [roundPos_eq_of_near (by norm_num) (-1) 8556839292003942 (by norm_num) (by norm_num)
    (by norm_num) (by norm_num)]
  norm_num

theorem lit99_eq : lit99 = 8917127262193582 / 2 ^ 53 := by
  unfold lit99
  rw [roundF64_of_pos (by norm_num)]
  rw [roundPos_eq_of_near (by norm_num) (-1) 8917127262193582 (by norm_num) (by norm_num)
    (by norm_num) (by norm_num)]
  norm_num

theorem f64ToInt_of_nonneg {x : ℚ} (hx : 0 ≤ x) : f64ToInt x = ⌊x⌋ := by
  simp [f64ToInt, hx]

theorem f64OfInt_eq (k : ℤ) (hk : |k| ≤ 2 ^ 53) : f64OfInt k = k := roundF64_intCast k hk

/-- The index `int(float64(n) * 0.95)` is the integer quotient `19 * n / 20`. -/
theorem idx95_eq (n : ℕ) (hn : n < 2 ^ 47) :
    f64ToInt (f64mul (f64OfInt (n : ℤ)) lit95) = ((19 * n / 20 : ℕ) : ℤ) := by
  have hcast : f64OfInt (n : ℤ) = (n : ℚ) := by
    rw [f64OfInt_eq _ (by rw [abs_of_nonneg (by positivity)]; exact_mod_cast (by omega : n ≤ 2 ^ 53))]
    norm_cast
  rw [hcast]
  rcases Nat.eq_zero_or_pos n with h0 | h0
  · subst h0; simp [f64mul, roundF64_zero, f64ToInt]
  · have hpos : (0:ℚ) < (n:ℚ) * lit95 := by
      rw [lit95_eq]; have : (0:ℚ) < n := by exact_mod_cast h0
      positivity
    unfold f64mul
    rw [roundF64_of_pos hpos, f64ToInt_of_nonneg (roundPos_pos hpos).le]
    exact floor_roundPos_mul n 19 20 lit95 (1 / (5 * 2 ^ 52)) h0 hn (by norm_num) (by norm_num)
      (by rw [lit95_eq]; norm_num) (by norm_num) (by rw [lit95_eq]; norm_num)
      (by rw [lit95_eq]; norm_num) (by rw [lit95_eq]; norm_num)

/-- The index `int(float64(n) * 0.99)` is the integer quotient `99 * n / 100`. -/
theorem idx99_eq (n : ℕ) (hn : n < 2 ^ 47) :
    f64ToInt (f64mul (f64OfInt (n : ℤ)) lit99) = ((99 * n / 100 : ℕ) : ℤ) := by
  have hcast : f64OfInt (n : ℤ) = (n : ℚ) := by
    rw [f64OfInt_eq _ (by rw [abs_of_nonneg (by positivity)]; exact_mod_cast (by omega : n ≤ 2 ^ 53))]
    norm_cast
  rw [hcast]
  rcases Nat.eq_zero_or_pos n with h0 | h0
  · subst h0; simp [f64mul, roundF64_zero, f64ToInt]
  · have hpos : (0:ℚ) < (n:ℚ) * lit99 := by
      rw [lit99_eq]; have : (0:ℚ) < n := by exact_mod_cast h0
      positivity
    unfold f64mul
    rw [roundF64_of_pos hpos, f64ToInt_of_nonneg (roundPos_pos hpos).le]
    exact floor_roundPos_mul n 99 100 lit99 (1 / (25 * 2 ^ 52)) h0 hn (by norm_num) (by norm_num)
      (by rw [lit99_eq]; norm_num) (by norm_num) (by rw [lit99_eq]; norm_num)
      (by rw [lit99_eq]; norm_num) (by rw [lit99_eq]; norm_num)

end float64

/-! ## Lemmas on package time -/

namespace time

theorem Milliseconds_eq (d : ℤ) :
    Milliseconds d = if 0 ≤ d then d / 1000000 else -((-d) / 1000000) := by
  unfold Milliseconds
  split_ifs with h
  · exact Int.tdiv_eq_ediv h (by norm_num)
  · have h' : 0 ≤ -d := by omega
    have := Int.tdiv_eq_ediv h' (show (0:ℤ) ≤ 1000000 by norm_num)
    rw [Int.neg_tdiv] at this
    omega

theorem Milliseconds_mono {a b : ℤ} (h : a ≤ b) : Milliseconds a ≤ Milliseconds b := by
  rw [Milliseconds_eq, Milliseconds_eq]
  split_ifs <;> omega

theorem Milliseconds_abs_le (d : ℤ) : |Milliseconds d| ≤ |d| := by
  rw [Milliseconds_eq]
  split_ifs with h
  · rw [abs_of_nonneg h, abs_of_nonneg (by omega)]; omega
  · rw [abs_of_neg (by omega : d < 0), abs_of_nonpos (by omega)]; omega

end time

/-! ## Lemmas on the statistics of package runner -/

namespace runner

open float64

theorem sortSlice_sorted (l : List time.Duration) : (sortSlice l).Sorted (fun a b => a ≤ b) :=
  List.sorted_insertionSort _ l

theorem sortSlice_perm (l : List time.Duration) : (sortSlice l).Perm l :=
  List.perm_insertionSort _ l

theorem sortSlice_length (l : List time.Duration) : (sortSlice l).length = l.length :=
  (sortSlice_perm l).length_eq

/-- The ascending arrangement of a sample is unique. -/
theorem sortSlice_eq_of_sorted_perm {l s : List time.Duration}
    (hs : s.Sorted (fun a b => a ≤ b)) (hp : s.Perm l) : sortSlice l = s :=
  List.eq_of_perm_of_sorted ((sortSlice_perm l).trans hp.symm) (sortSlice_sorted l) hs

theorem sortSlice_congr {l₁ l₂ : List time.Duration} (hp : l₁.Perm l₂) :
    sortSlice l₁ = sortSlice l₂ :=
  sortSlice_eq_of_sorted_perm (sortSlice_sorted l₂) ((sortSlice_perm l₂).trans hp.symm)

theorem index_natCast (s : List time.Duration) (i : ℕ) (h : i < s.length) :
    index s (i : ℤ) = s.get? i := by
  have : ((i : ℤ) < (s.length : ℤ)) := by exact_mod_cast h
  simp [index, this]

theorem index_eq_some_iff (s : List time.Duration) (i : ℤ) (d : time.Duration) :
    index s i = some d ↔ 0 ≤ i ∧ i < s.length ∧ s.get? i.toNat = some d := by
  unfold index
  split_ifs with h
  · simp [h.1, h.2]
  · simp only [false_iff, reduceCtorEq]
    intro h'
    exact h ⟨h'.1, h'.2.1⟩

/-- The clamped percentile index of `Run` and `printProgress` lies inside the sample. -/
theorem clamp_bounds (n : ℤ) (hn : 0 < n) (c : ℚ) (hc : 0 ≤ c) :
    0 ≤ (if f64ToInt (f64mul (f64OfInt n) c) ≥ n then n - 1
          else f64ToInt (f64mul (f64OfInt n) c)) ∧
      (if f64ToInt (f64mul (f64OfInt n) c) ≥ n then n - 1
          else f64ToInt (f64mul (f64OfInt n) c)) < n := by
  have h0 : (0:ℚ) ≤ f64mul (f64OfInt n) c := by
    unfold f64mul f64OfInt
    apply roundF64_nonneg
    exact mul_nonneg (roundF64_nonneg (by exact_mod_cast hn.le)) hc
  have h1 : 0 ≤ f64ToInt (f64mul (f64OfInt n) c) := by
    rw [f64ToInt_of_nonneg h0]; exact Int.floor_nonneg.2 h0
  split_ifs with h <;> omega

/-- The clamped percentile index grows with the fraction. -/
theorem clamp_mono (n : ℤ) (hn : 0 < n) {c c' : ℚ} (hc : 0 ≤ c) (hcc : c ≤ c') :
    (if f64ToInt (f64mul (f64OfInt n) c) ≥ n then n - 1
          else f64ToInt (f64mul (f64OfInt n) c)) ≤
      (if f64ToInt (f64mul (f64OfInt n) c') ≥ n then n - 1
          else f64ToInt (f64mul (f64OfInt n) c')) := by
  have hn0 : (0:ℚ) ≤ f64OfInt n := roundF64_nonneg (by exact_mod_cast hn.le)
  have h0 : (0:ℚ) ≤ f64mul (f64OfInt n) c := roundF64_nonneg (mul_nonneg hn0 hc)
  have h0' : (0:ℚ) ≤ f64mul (f64OfInt n) c' := roundF64_nonneg (mul_nonneg hn0 (hc.trans hcc))
  have hm : f64mul (f64OfInt n) c ≤ f64mul (f64OfInt n) c' :=
    roundF64_mono (mul_le_mul_of_nonneg_left hcc hn0)
  have hf : f64ToInt (f64mul (f64OfInt n) c) ≤ f64ToInt (f64mul (f64OfInt n) c') := by
    rw [f64ToInt_of_nonneg h0, f64ToInt_of_nonneg h0']
    exact Int.floor_mono hm
  split_ifs <;> omega

theorem lit95_nonneg : (0:ℚ) ≤ lit95 := roundF64_nonneg (by norm_num)

theorem lit95_le_lit99 : lit95 ≤ lit99 := roundF64_mono (by norm_num)

theorem sorted_get?_le {s : List time.Duration} (hs : s.Sorted (fun a b => a ≤ b)) {i j : ℕ}
    (hij : i ≤ j) {a b : time.Duration} (ha : s.get? i = some a) (hb : s.get? j = some b) :
    a ≤ b := by
  rcases hij.lt_or_eq with h | h
  · rw [List.get?_eq_some] at ha hb
    obtain ⟨hi, rfl⟩ := ha
    obtain ⟨hj, rfl⟩ := hb
    exact List.pairwise_iff_get.1 hs ⟨i, hi⟩ ⟨j, hj⟩ h
  · subst h
    rw [ha] at hb
    exact le_of_eq (Option.some.inj hb)

/-- The four reads of the sorted sample succeed on a non-empty sample, and the values read are
in ascending order and enclose the sample. -/
theorem reads_ok (lat : List time.Duration) (hne : 0 < lat.length) :
    ∃ d0 dmax d95 d99 : time.Duration,
      index (sortSlice lat) 0 = some d0 ∧
      index (sortSlice lat) (((sortSlice lat).length : ℤ) - 1) = some dmax ∧
      index (sortSlice lat)
        (if f64ToInt (f64mul (f64OfInt ((sortSlice lat).length : ℤ)) lit95) ≥
            ((sortSlice lat).length : ℤ) then ((sortSlice lat).length : ℤ) - 1
          else f64ToInt (f64mul (f64OfInt ((sortSlice lat).length : ℤ)) lit95)) = some d95 ∧
      index (sortSlice lat)
        (if f64ToInt (f64mul (f64OfInt ((sortSlice lat).length : ℤ)) lit99) ≥
            ((sortSlice lat).length : ℤ) then ((sortSlice lat).length : ℤ) - 1
          else f64ToInt (f64mul (f64OfInt ((sortSlice lat).length : ℤ)) lit99)) = some d99 ∧
      d0 ≤ d95 ∧ d95 ≤ d99 ∧ d99 ≤ dmax ∧ ∀ d ∈ sortSlice lat, d0 ≤ d ∧ d ≤ dmax := by
  have hlen : 0 < (sortSlice lat).length := by rw [sortSlice_length]; exact hne
  have hn : (0:ℤ) < ((sortSlice lat).length : ℤ) := by exact_mod_cast hlen
  have hsorted := sortSlice_sorted lat
  obtain ⟨b95, b95'⟩ := clamp_bounds _ hn lit95 lit95_nonneg
  obtain ⟨b99, b99'⟩ := clamp_bounds _ hn lit99 (lit95_nonneg.trans lit95_le_lit99)
  have hmono := clamp_mono _ hn lit95_nonneg lit95_le_lit99
  generalize hi95 : (if f64ToInt (f64mul (f64OfInt ((sortSlice lat).length : ℤ)) lit95) ≥
            ((sortSlice lat).length : ℤ) then ((sortSlice lat).length : ℤ) - 1
          else f64ToInt (f64mul (f64OfInt ((sortSlice lat).length : ℤ)) lit95)) = i95
    at b95 b95' hmono ⊢
  generalize hi99 : (if f64ToInt (f64mul (f64OfInt ((sortSlice lat).length : ℤ)) lit99) ≥
            ((sortSlice lat).length : ℤ) then ((sortSlice lat).length : ℤ) - 1
          else f64ToInt (f64mul (f64OfInt ((sortSlice lat).length : ℤ)) lit99)) = i99
    at b99 b99' hmono ⊢
  generalize sortSlice lat = s at *
  have e0 : s.get? 0 = some (s.get ⟨0, hlen⟩) := List.get?_eq_get hlen
  have hl1 : s.length - 1 < s.length := by omega
  have emax : s.get? (s.length - 1) = some (s.get ⟨s.length - 1, hl1⟩) := List.get?_eq_get hl1
  have h95 : i95.toNat < s.length := by omega
  have h99 : i99.toNat < s.length := by omega
  have e95 : s.get? i95.toNat = some (s.get ⟨i95.toNat, h95⟩) := List.get?_eq_get h95
  have e99 : s.get? i99.toNat = some (s.get ⟨i99.toNat, h99⟩) := List.get?_eq_get h99
  refine ⟨s.get ⟨0, hlen⟩, s.get ⟨s.length - 1, hl1⟩, s.get ⟨i95.toNat, h95⟩,
    s.get ⟨i99.toNat, h99⟩, ?_, ?_, ?_, ?_, ?_, ?_, ?_, ?_⟩
  · exact (index_eq_some_iff _ _ _).2 ⟨le_rfl, hn, e0⟩
  · refine (index_eq_some_iff _ _ _).2 ⟨by omega, by omega, ?_⟩
    have : ((s.length : ℤ) - 1).toNat = s.length - 1 := by omega
    rw [this]; exact emax
  · exact (index_eq_some_iff _ _ _).2 ⟨b95, b95', e95⟩
  · exact (index_eq_some_iff _ _ _).2 ⟨b99, b99', e99⟩
  · exact sorted_get?_le hsorted (Nat.zero_le _) e0 e95
  · exact sorted_get?_le hsorted (by omega) e95 e99
  · exact sorted_get?_le hsorted (by omega) e99 emax
  · intro d hd
    obtain ⟨i, hi⟩ := List.mem_iff_get.1 hd
    have ei : s.get? i.1 = some d := by rw [List.get?_eq_get i.2, hi]
    exact ⟨sorted_get?_le hsorted (Nat.zero_le _) e0 ei,
      sorted_get?_le hsorted (by have := i.2; omega) ei emax⟩

theorem foldl_sum_exact (l : List time.Duration) (a : ℤ)
    (h : |a| + (l.map (fun d => |time.Milliseconds d|)).sum ≤ 2 ^ 53) :
    l.foldl (fun sum d => f64add sum (f64OfInt (time.Milliseconds d))) (a : ℚ) =
      ((a + (l.map time.Milliseconds).sum : ℤ) : ℚ) := by
  induction l generalizing a with
  | nil => simp
  | cons d l ih =>
    have hnn : 0 ≤ (l.map (fun d => |time.Milliseconds d|)).sum :=
      List.sum_nonneg (by intro x hx; obtain ⟨y, _, rfl⟩ := List.mem_map.1 hx; exact abs_nonneg _)
    simp only [List.map_cons, List.sum_cons] at h
    have ha : 0 ≤ |a| := abs_nonneg a
    have hd : |time.Milliseconds d| ≤ 2 ^ 53 := by linarith
    have hadd : |a + time.Milliseconds d| ≤ |a| + |time.Milliseconds d| := abs_add a _
    have hstep : f64add (a : ℚ) (f64OfInt (time.Milliseconds d)) =
        ((a + time.Milliseconds d : ℤ) : ℚ) := by
      unfold f64add
      rw [f64OfInt_eq _ hd]
      have := roundF64_intCast (a + time.Milliseconds d) (by linarith)
      push_cast at this ⊢
      exact this
    simp only [List.foldl_cons, List.map_cons, List.sum_cons]
    rw [hstep, ih (a + time.Milliseconds d) (by linarith)]
    push_cast
    ring

theorem abs_ms_le_sum {l : List time.Duration} {d : time.Duration} (hd : d ∈ l) :
    |time.Milliseconds d| ≤ (l.map (fun d => |time.Milliseconds d|)).sum := by
  apply List.single_le_sum
  · intro x hx; obtain ⟨y, _, rfl⟩ := List.mem_map.1 hx; exact abs_nonneg _
  · exact List.mem_map.2 ⟨d, hd, rfl⟩

/-- The statistics block of `Run` once its four reads of the sorted sample are known. -/
theorem report_of_reads (s : Shared) (durationSec : ℚ) (realDuration : time.Duration)
    (d0 dmax d95 d99 : time.Duration) (hpos : 0 < s.totalReqs)
    (h0 : index (sortSlice s.latencies) 0 = some d0)
    (hmax : index (sortSlice s.latencies) (((sortSlice s.latencies).length : ℤ) - 1) = some dmax)
    (h95 : index (sortSlice s.latencies)
        (if f64ToInt (f64mul (f64OfInt ((sortSlice s.latencies).length : ℤ)) lit95) ≥
            ((sortSlice s.latencies).length : ℤ) then ((sortSlice s.latencies).length : ℤ) - 1
          else f64ToInt (f64mul (f64OfInt ((sortSlice s.latencies).length : ℤ)) lit95)) = some d95)
    (h99 : index (sortSlice s.latencies)
        (if f64ToInt (f64mul (f64OfInt ((sortSlice s.latencies).length : ℤ)) lit99) ≥
            ((sortSlice s.latencies).length : ℤ) then ((sortSlice s.latencies).length : ℤ) - 1
          else f64ToInt (f64mul (f64OfInt ((sortSlice s.latencies).length : ℤ)) lit99)) = some d99) :
    report s durationSec realDuration = some
      { TotalRequests := s.totalReqs, Successful := s.success, Failed := s.failed,
        SuccessRate := f64div (f64OfInt s.success) (f64OfInt s.totalReqs),
        AvgLatencyMs := f64div
          ((sortSlice s.latencies).foldl
            (fun sum d => f64add sum (f64OfInt (time.Milliseconds d))) 0)
          (f64OfInt ((sortSlice s.latencies).length : ℤ)),
        MinLatencyMs := f64OfInt (time.Milliseconds d0),
        MaxLatencyMs := f64OfInt (time.Milliseconds dmax),
        P95LatencyMs := f64OfInt (time.Milliseconds d95),
        P99LatencyMs := f64OfInt (time.Milliseconds d99),
        RPS := f64div (f64OfInt s.totalReqs) durationSec, Duration := realDuration } := by
  unfold report
  simp only [gt_iff_lt, hpos, if_true, h0, hmax, h95, h99, Option.bind, ge_iff_le]

theorem report_of_zero (s : Shared) (durationSec : ℚ) (realDuration : time.Duration)
    (hz : ¬ 0 < s.totalReqs) :
    report s durationSec realDuration = some
      { TotalRequests := s.totalReqs, Successful := s.success, Failed := s.failed,
        SuccessRate := 0, AvgLatencyMs := 0, MinLatencyMs := 0, MaxLatencyMs := 0,
        P95LatencyMs := 0, P99LatencyMs := 0,
        RPS := f64div (f64OfInt s.totalReqs) durationSec, Duration := realDuration } := by
  unfold report
  simp only [gt_iff_lt, hz, if_false]

theorem record_inv (s : Shared) (res : target.Result)
    (h : s.totalReqs = s.success + s.failed ∧ (s.latencies.length : ℤ) = s.totalReqs) :
    (record s res).totalReqs = (record s res).success + (record s res).failed ∧
      ((record s res).latencies.length : ℤ) = (record s res).totalReqs ∧
      (record s res).sentCount = s.sentCount := by
  obtain ⟨h1, h2⟩ := h
  have e : (record s res).latencies.length = s.latencies.length + 1 := by simp [record]
  have t : (record s res).totalReqs = s.totalReqs + 1 := rfl
  refine ⟨?_, ?_, rfl⟩
  · rw [t]
    cases hs : res.Success <;> simp [record, hs] <;> linarith
  · rw [e, t, ← h2]
    push_cast
    rfl

theorem recordAll_inv (outs : List target.Result) (s : Shared)
    (h : s.totalReqs = s.success + s.failed ∧ (s.latencies.length : ℤ) = s.totalReqs) :
    (recordAll s outs).totalReqs = (recordAll s outs).success + (recordAll s outs).failed ∧
      ((recordAll s outs).latencies.length : ℤ) = (recordAll s outs).totalReqs := by
  induction outs generalizing s with
  | nil => exact h
  | cons o outs ih =>
    have := record_inv s o h
    exact ih (record s o) ⟨this.1, this.2.1⟩

theorem init_inv : Shared.init.totalReqs = Shared.init.success + Shared.init.failed ∧
    (Shared.init.latencies.length : ℤ) = Shared.init.totalReqs := by
  simp [Shared.init]

theorem recordAll_fields (outs : List target.Result) (s : Shared) :
    (recordAll s outs).totalReqs = s.totalReqs + outs.length ∧
    (recordAll s outs).success = s.success + (outs.filter (fun o => o.Success)).length ∧
    (recordAll s outs).failed = s.failed + (outs.filter (fun o => !o.Success)).length ∧
    (recordAll s outs).latencies = s.latencies ++ outs.map (fun o => o.Latency) ∧
    (recordAll s outs).sentCount = s.sentCount := by
  induction outs generalizing s with
  | nil => simp [recordAll]
  | cons o outs ih =>
    obtain ⟨a, b, c, d, e⟩ := ih (record s o)
    have hr : recordAll s (o :: outs) = recordAll (record s o) outs := rfl
    rw [hr, a, b, c, d, e]
    cases ho : o.Success <;> simp [record, ho, List.filter_cons] <;> omega

/-- The statistics block never panics on a state whose sample has `totalReqs` elements. -/
theorem report_isSome (s : Shared) (durationSec : ℚ) (realDuration : time.Duration)
    (hlen : (s.latencies.length : ℤ) = s.totalReqs) :
    ∃ r : Result, report s durationSec realDuration = some r ∧
      r.TotalRequests = s.totalReqs ∧ r.Successful = s.success ∧ r.Failed = s.failed ∧
      r.RPS = f64div (f64OfInt s.totalReqs) durationSec := by
  by_cases hpos : 0 < s.totalReqs
  · obtain ⟨d0, dmax, d95, d99, h0, hmax, h95, h99, -⟩ := reads_ok s.latencies (by omega)
    exact ⟨_, report_of_reads s durationSec realDuration d0 dmax d95 d99 hpos h0 hmax h95 h99,
      rfl, rfl, rfl, rfl⟩
  · exact ⟨_, report_of_zero s durationSec realDuration hpos, rfl, rfl, rfl, rfl⟩

/-- The invariant of a run: the counters add up, the sample has one entry per recorded outcome,
every increment of `sentCount` is one call of `tgt.Send`, and a positive budget bounds
`sentCount`. -/
theorem step_inv (mode : StopMode) (total : ℤ) (p : Pool) (ev : Event)
    (h : p.shared.totalReqs = p.shared.success + p.shared.failed ∧
      (p.shared.latencies.length : ℤ) = p.shared.totalReqs ∧
      (p.dispatched : ℤ) = p.shared.sentCount ∧ (0 < total → p.shared.sentCount ≤ total)) :
    (step mode total p ev).shared.totalReqs =
        (step mode total p ev).shared.success + (step mode total p ev).shared.failed ∧
      ((step mode total p ev).shared.latencies.length : ℤ) =
        (step mode total p ev).shared.totalReqs ∧
      ((step mode total p ev).dispatched : ℤ) = (step mode total p ev).shared.sentCount ∧
      (0 < total → (step mode total p ev).shared.sentCount ≤ total) := by
  obtain ⟨h1, h2, h3, h4⟩ := h
  cases ev with
  | deadline =>
    cases mode <;> exact ⟨h1, h2, h3, h4⟩
  | observeDone w =>
    simp only [step]
    split_ifs <;> exact ⟨h1, h2, h3, h4⟩
  | budget w =>
    simp only [step]
    by_cases hw : p.workers.get? w = some Phase.idle
    · simp only [hw, if_true]
      by_cases hb : total > 0 ∧ p.shared.sentCount ≥ total
      · simp only [budgetCheck, hb, and_self, if_true]
        exact ⟨h1, h2, h3, fun _ => h4 hb.1⟩
      · simp only [budgetCheck, hb, if_false, Bool.false_eq_true]
        refine ⟨h1, h2, ?_, ?_⟩
        · push_cast; omega
        · intro ht
          have := h4 ht
          simp only [gt_iff_lt, ge_iff_le, not_and, not_le] at hb
          have := hb ht
          show p.shared.sentCount + 1 ≤ total
          omega
    · simp only [hw, if_false]
      exact ⟨h1, h2, h3, h4⟩
  | complete w res =>
    simp only [step]
    by_cases hw : p.workers.get? w = some Phase.inFlight
    · simp only [hw, if_true]
      cases res with
      | none => exact ⟨h1, h2, h3, h4⟩
      | some r =>
        obtain ⟨a, b, c⟩ := record_inv p.shared r ⟨h1, h2⟩
        refine ⟨a, b, ?_, ?_⟩
        · show (p.dispatched : ℤ) = (record p.shared r).sentCount
          rw [c]; exact h3
        · intro ht
          show (record p.shared r).sentCount ≤ total
          rw [c]; exact h4 ht
    · simp only [hw, if_false]
      exact ⟨h1, h2, h3, h4⟩

theorem runPool_inv (mode : StopMode) (total : ℤ) (sched : List Event) (p : Pool)
    (h : p.shared.totalReqs = p.shared.success + p.shared.failed ∧
      (p.shared.latencies.length : ℤ) = p.shared.totalReqs ∧
      (p.dispatched : ℤ) = p.shared.sentCount ∧ (0 < total → p.shared.sentCount ≤ total)) :
    (runPool mode total p sched).shared.totalReqs =
        (runPool mode total p sched).shared.success +
          (runPool mode total p sched).shared.failed ∧
      ((runPool mode total p sched).shared.latencies.length : ℤ) =
        (runPool mode total p sched).shared.totalReqs ∧
      ((runPool mode total p sched).dispatched : ℤ) =
        (runPool mode total p sched).shared.sentCount ∧
      (0 < total → (runPool mode total p sched).shared.sentCount ≤ total) := by
  induction sched generalizing p with
  | nil => exact h
  | cons ev sched ih => exact ih (step mode total p ev) (step_inv mode total p ev h)

theorem poolInit_inv (concurrency total : ℤ) :
    (Pool.init concurrency).shared.totalReqs =
        (Pool.init concurrency).shared.success + (Pool.init concurrency).shared.failed ∧
      ((Pool.init concurrency).shared.latencies.length : ℤ) =
        (Pool.init concurrency).shared.totalReqs ∧
      ((Pool.init concurrency).dispatched : ℤ) = (Pool.init concurrency).shared.sentCount ∧
      (0 < total → (Pool.init concurrency).shared.sentCount ≤ total) := by
  simp only [Pool.init, Shared.init]
  refine ⟨by norm_num, by norm_num, by norm_num, fun h => h.le⟩

/-- C1. The statistics block of `Run`. For a final state whose sample has `totalReqs` elements
(fewer than `2 ^ 47`, with millisecond values whose absolute sum is at most `2 ^ 53`, the range
in which the float64 accumulator is exact): the block returns a result; if `totalReqs = 0` the
six statistics are `0` and the result does not depend on the sample; if `totalReqs = n > 0`
then, with `sorted` the ascending arrangement of the sample, the minimum and maximum are the
milliseconds of `sorted[0]` and `sorted[n-1]`, the average is the float64 quotient of the sum of
the milliseconds by `n`, the percentiles are the milliseconds of
`sorted[min(⌊0.95 n⌋, n-1)]` and `sorted[min(⌊0.99 n⌋, n-1)]`, and the success rate is the
float64 quotient `success / n`. -/
theorem report_statistics (s : Shared) (durationSec : ℚ) (realDuration : time.Duration)
    (hlen : (s.latencies.length : ℤ) = s.totalReqs)
    (hn : s.totalReqs < 2 ^ 47)
    (hsum : (s.latencies.map (fun d => |time.Milliseconds d|)).sum ≤ 2 ^ 53)
    (hsucc : |s.success| ≤ 2 ^ 53) :
    ∃ r : Result, report s durationSec realDuration = some r ∧
      (s.totalReqs = 0 →
        r.SuccessRate = 0 ∧ r.AvgLatencyMs = 0 ∧ r.MinLatencyMs = 0 ∧ r.MaxLatencyMs = 0 ∧
        r.P95LatencyMs = 0 ∧ r.P99LatencyMs = 0 ∧
        ∀ sample : List time.Duration,
          report { s with latencies := sample } durationSec realDuration = some r) ∧
      (0 < s.totalReqs →
        ∀ sorted : List time.Duration, sorted.Sorted (fun a b => a ≤ b) →
          sorted.Perm s.latencies → ∀ n : ℕ, n = sorted.length →
          (sorted.get? 0).map (fun d => ((time.Milliseconds d : ℤ) : ℚ)) = some r.MinLatencyMs ∧
          (sorted.get? (n - 1)).map (fun d => ((time.Milliseconds d : ℤ) : ℚ)) =
            some r.MaxLatencyMs ∧
          r.AvgLatencyMs = f64div (((sorted.map time.Milliseconds).sum : ℤ) : ℚ) (n : ℚ) ∧
          (sorted.get? (min (95 * n / 100) (n - 1))).map
            (fun d => ((time.Milliseconds d : ℤ) : ℚ)) = some r.P95LatencyMs ∧
          (sorted.get? (min (99 * n / 100) (n - 1))).map
            (fun d => ((time.Milliseconds d : ℤ) : ℚ)) = some r.P99LatencyMs ∧
          r.SuccessRate = f64div (s.success : ℚ) (n : ℚ)) := by
  by_cases hpos : 0 < s.totalReqs
  · have hne : 0 < s.latencies.length := by omega
    obtain ⟨d0, dmax, d95, d99, h0, hmax, h95, h99, -⟩ := reads_ok s.latencies hne
    refine ⟨_, report_of_reads s durationSec realDuration d0 dmax d95 d99 hpos h0 hmax h95 h99,
      fun hz => absurd hz (by omega), ?_⟩
    intro _ sorted hsorted hperm n hnlen
    have hs : sortSlice s.latencies = sorted := sortSlice_eq_of_sorted_perm hsorted hperm
    rw [hs] at h0 hmax h95 h99
    have hnl : n = s.latencies.length := by rw [hnlen, hperm.length_eq]
    have hn47 : n < 2 ^ 47 := by
      have : (n : ℤ) < 2 ^ 47 := by rw [hnl, hlen]; exact hn
      exact_mod_cast this
    have hnpos : 0 < n := by omega
    have hsum' : (sorted.map (fun d => |time.Milliseconds d|)).sum ≤ 2 ^ 53 := by
      rw [(hperm.map _).sum_eq]; exact hsum
    have hex : ∀ d ∈ sorted, f64OfInt (time.Milliseconds d) = ((time.Milliseconds d : ℤ) : ℚ) :=
      fun d hd => f64OfInt_eq _ ((abs_ms_le_sum hd).trans hsum')
    have hncast : f64OfInt ((sorted.length : ℕ) : ℤ) = (n : ℚ) := by
      rw [← hnlen, f64OfInt_eq _ (by rw [abs_of_nonneg (by positivity)]; omega)]
      norm_cast
    have htot : f64OfInt s.totalReqs = (n : ℚ) := by
      rw [← hlen, ← hnl, hnlen]; exact hnlen ▸ hncast
    rw [idx95_eq _ (hnlen ▸ hn47)] at h95
    rw [idx99_eq _ (hnlen ▸ hn47)] at h99
    rw [← hnlen] at h95 h99 hmax
    have c95 : ¬ (((19 * n / 20 : ℕ) : ℤ) ≥ (n : ℤ)) := by omega
    have c99 : ¬ (((99 * n / 100 : ℕ) : ℤ) ≥ (n : ℤ)) := by omega
    rw [if_neg c95] at h95
    rw [if_neg c99] at h99
    rw [index_eq_some_iff] at h0 hmax h95 h99
    have g0 := h0.2.2
    have gmax := hmax.2.2
    have g95 := h95.2.2
    have g99 := h99.2.2
    have e1 : ((n : ℤ) - 1).toNat = n - 1 := by omega
    have e2 : (((19 * n / 20 : ℕ) : ℤ)).toNat = min (95 * n / 100) (n - 1) := by
      rw [Int.toNat_natCast]; omega
    have e3 : (((99 * n / 100 : ℕ) : ℤ)).toNat = min (99 * n / 100) (n - 1) := by
      rw [Int.toNat_natCast]; omega
    rw [e1] at gmax
    rw [e2] at g95
    rw [e3] at g99
    simp only [Int.toNat_zero] at g0
    have m0 := List.get?_mem g0
    have mmax := List.get?_mem gmax
    have m95 := List.get?_mem g95
    have m99 := List.get?_mem g99
    refine ⟨?_, ?_, ?_, ?_, ?_, ?_⟩
    · rw [g0]; simp [hex d0 m0]
    · rw [gmax]; simp [hex dmax mmax]
    · simp only
      rw [hs, hncast]
      have := foldl_sum_exact sorted 0 (by simpa using hsum')
      simp only [Int.cast_zero, zero_add] at this
      rw [this]
    · rw [g95]; simp [hex d95 m95]
    · rw [g99]; simp [hex d99 m99]
    · simp only
      rw [htot, f64OfInt_eq _ hsucc]
  · refine ⟨_, report_of_zero s durationSec realDuration hpos, ?_, fun h => absurd h hpos⟩
    intro hz
    refine ⟨rfl, rfl, rfl, rfl, rfl, rfl, ?_⟩
    intro sample
    exact report_of_zero { s with latencies := sample } durationSec realDuration hpos

theorem report_statistics_witness :
    (([30000000, 10000000, 20000000] : List time.Duration).length : ℤ) = 3 ∧
    ∃ r : Result,
      report { totalReqs := 3, success := 2, failed := 1,
               latencies := [30000000, 10000000, 20000000], sentCount := 3 } 2 2000000000
        = some r ∧
      r.MinLatencyMs = 10 ∧ r.MaxLatencyMs = 30 ∧ r.P95LatencyMs = 30 ∧ r.P99LatencyMs = 30 ∧
      r.AvgLatencyMs = 20 ∧ r.SuccessRate = f64div 2 3 := by
  refine ⟨by decide, ?_⟩
  obtain ⟨r, hr, -, hp⟩ := report_statistics
    { totalReqs := 3, success := 2, failed := 1,
      latencies := [30000000, 10000000, 20000000], sentCount := 3 } 2 2000000000
    (by decide) (by decide) (by decide) (by decide)
  have h := hp (by decide) [10000000, 20000000, 30000000] (by decide) (by decide) 3 rfl
  refine ⟨r, hr, ?_⟩
  obtain ⟨h1, h2, h3, h4, h5, h6⟩ := h
  have ms10 : time.Milliseconds 10000000 = 10 := by decide
  have ms20 : time.Milliseconds 20000000 = 20 := by decide
  have ms30 : time.Milliseconds 30000000 = 30 := by decide
  have r20 : roundF64 20 = 20 := by
    have := roundF64_intCast 20 (by decide)
    simpa using this
  simp [ms10] at h1
  simp [ms30] at h2 h4 h5
  simp [ms10, ms20, ms30, f64div] at h3
  norm_num at h3
  simp at h6
  exact ⟨h1.symm, h2.symm, h4.symm, h5.symm, by rw [h3, r20], h6⟩

theorem f64OfInt_ms_mono {a b : ℤ} (h : a ≤ b) :
    f64OfInt (time.Milliseconds a) ≤ f64OfInt (time.Milliseconds b) := by
  unfold f64OfInt
  apply roundF64_mono
  exact_mod_cast time.Milliseconds_mono h

theorem sum_ms_bounds (l : List time.Duration) (lo hi : ℤ)
    (h : ∀ d ∈ l, lo ≤ d ∧ d ≤ hi) :
    (l.length : ℤ) * time.Milliseconds lo ≤ (l.map time.Milliseconds).sum ∧
      (l.map time.Milliseconds).sum ≤ (l.length : ℤ) * time.Milliseconds hi := by
  induction l with
  | nil => simp
  | cons d l ih =>
    have hd := h d (List.mem_cons_self _ _)
    have := ih fun x hx => h x (List.mem_cons_of_mem _ hx)
    have h1 := time.Milliseconds_mono hd.1
    have h2 := time.Milliseconds_mono hd.2
    simp only [List.map_cons, List.sum_cons, List.length_cons]
    push_cast
    constructor <;> nlinarith

/-- C4. For a non-empty sample (of at most `2 ^ 53` elements, with millisecond values whose
absolute sum is at most `2 ^ 53`, the range in which the float64 accumulator is exact) the
statistics block of `Run` returns a result with `Min ≤ P95 ≤ P99 ≤ Max` and
`Min ≤ Avg ≤ Max`. -/
theorem report_ordering (s : Shared) (durationSec : ℚ) (realDuration : time.Duration)
    (hne : s.latencies ≠ [])
    (hn : (s.latencies.length : ℤ) ≤ 2 ^ 53)
    (hsum : (s.latencies.map (fun d => |time.Milliseconds d|)).sum ≤ 2 ^ 53) :
    ∃ r : Result, report s durationSec realDuration = some r ∧
      r.MinLatencyMs ≤ r.P95LatencyMs ∧ r.P95LatencyMs ≤ r.P99LatencyMs ∧
      r.P99LatencyMs ≤ r.MaxLatencyMs ∧
      r.MinLatencyMs ≤ r.AvgLatencyMs ∧ r.AvgLatencyMs ≤ r.MaxLatencyMs := by
  have hlp : 0 < s.latencies.length := List.length_pos.2 hne
  by_cases hpos : 0 < s.totalReqs
  · obtain ⟨d0, dmax, d95, d99, h0, hmax, h95, h99, o1, o2, o3, hall⟩ :=
      reads_ok s.latencies hlp
    refine ⟨_, report_of_reads s durationSec realDuration d0 dmax d95 d99 hpos h0 hmax h95 h99,
      f64OfInt_ms_mono o1, f64OfInt_ms_mono o2, f64OfInt_ms_mono o3, ?_, ?_⟩
    all_goals
      simp only
      have hsum' : ((sortSlice s.latencies).map (fun d => |time.Milliseconds d|)).sum ≤ 2 ^ 53 := by
        rw [((sortSlice_perm s.latencies).map _).sum_eq]; exact hsum
      have hex := foldl_sum_exact (sortSlice s.latencies) 0 (by simpa using hsum')
      simp only [Int.cast_zero, zero_add] at hex
      have hl : ((sortSlice s.latencies).length : ℤ) = (s.latencies.length : ℤ) := by
        rw [sortSlice_length]
      have hncast : f64OfInt ((sortSlice s.latencies).length : ℤ) =
          (((sortSlice s.latencies).length : ℤ) : ℚ) :=
        f64OfInt_eq _ (by rw [abs_of_nonneg (by positivity), hl]; exact hn)
      have hnq : (0:ℚ) < (((sortSlice s.latencies).length : ℤ) : ℚ) := by
        rw [hl]; exact_mod_cast hlp
      rw [hex, hncast]
      obtain ⟨b1, b2⟩ := sum_ms_bounds (sortSlice s.latencies) d0 dmax hall
      unfold f64OfInt f64div
      apply roundF64_mono
    · rw [le_div_iff₀ hnq]
      have : (((time.Milliseconds d0 * ((sortSlice s.latencies).length : ℤ) : ℤ)) : ℚ) ≤
          ((((sortSlice s.latencies).map time.Milliseconds).sum : ℤ) : ℚ) := by
        exact_mod_cast (by linarith :
          time.Milliseconds d0 * ((sortSlice s.latencies).length : ℤ) ≤
            ((sortSlice s.latencies).map time.Milliseconds).sum)
      push_cast at this ⊢
      exact this
    · rw [div_le_iff₀ hnq]
      have : ((((sortSlice s.latencies).map time.Milliseconds).sum : ℤ) : ℚ) ≤
          (((time.Milliseconds dmax * ((sortSlice s.latencies).length : ℤ) : ℤ)) : ℚ) := by
        exact_mod_cast (by linarith :
          ((sortSlice s.latencies).map time.Milliseconds).sum ≤
            time.Milliseconds dmax * ((sortSlice s.latencies).length : ℤ))
      push_cast at this ⊢
      exact this
  · exact ⟨_, report_of_zero s durationSec realDuration hpos,
      le_rfl, le_rfl, le_rfl, le_rfl, le_rfl⟩

theorem report_ordering_witness :
    ([30000000, 10000000, 20000000] : List time.Duration) ≠ [] ∧
    ∃ r : Result,
      report { totalReqs := 3, success := 2, failed := 1,
               latencies := [30000000, 10000000, 20000000], sentCount := 3 } 2 2000000000
        = some r ∧
      r.MinLatencyMs ≤ r.P95LatencyMs ∧ r.P95LatencyMs ≤ r.P99LatencyMs ∧
      r.P99LatencyMs ≤ r.MaxLatencyMs ∧
      r.MinLatencyMs ≤ r.AvgLatencyMs ∧ r.AvgLatencyMs ≤ r.MaxLatencyMs :=
  ⟨by decide, report_ordering
    { totalReqs := 3, success := 2, failed := 1,
      latencies := [30000000, 10000000, 20000000], sentCount := 3 } 2 2000000000
    (by decide) (by decide) (by decide)⟩

/-- C2. With a positive budget `total`, in every state reachable from the start of a run by any
interleaving of the workers' steps, `sentCount` is at most `total`, and so is the number of
requests dispatched. -/
theorem sentCount_le_total (mode : StopMode) (total concurrency : ℤ) (sched : List Event)
    (hN : 0 < total) :
    (runPool mode total (Pool.init concurrency) sched).shared.sentCount ≤ total ∧
      ((runPool mode total (Pool.init concurrency) sched).dispatched : ℤ) ≤ total := by
  obtain ⟨-, -, h3, h4⟩ :=
    runPool_inv mode total sched (Pool.init concurrency) (poolInit_inv concurrency total)
  exact ⟨h4 hN, h3 ▸ h4 hN⟩

theorem sentCount_le_total_witness :
    (0 : ℤ) < 2 ∧
    (runPool .withCancel 2 (Pool.init 3)
        [.budget 0, .budget 1, .budget 2, .complete 0 none, .budget 0]).shared.sentCount ≤ 2 ∧
      ((runPool .withCancel 2 (Pool.init 3)
        [.budget 0, .budget 1, .budget 2, .complete 0 none, .budget 0]).dispatched : ℤ) ≤ 2 :=
  ⟨by decide, sentCount_le_total .withCancel 2 3 _ (by decide)⟩

/-- A run that passes the stop-condition check and the ticker construction, under a schedule
after which the context is done and every worker has returned, returns the result of the
statistics block on the final shared state. -/
theorem Run_of_finished (rate concurrency total : ℤ) (duration : time.Duration) (quiet : Bool)
    (sched : List Event) (durationSec : ℚ) (realDuration : time.Duration) (mode : StopMode)
    (hsc : stopCondition duration total = .ok mode)
    (hrate : ¬ (rate > 0 ∧ Int.tdiv time.Second rate ≤ 0))
    (hfin : (runPool mode total (Pool.init concurrency) sched).finished = true) :
    ∃ r : Result,
      report (runPool mode total (Pool.init concurrency) sched).shared durationSec realDuration =
        some r ∧
      Run rate concurrency duration total quiet sched durationSec realDuration =
        ((runPool mode total (Pool.init concurrency) sched).dispatched, some (.ok r)) := by
  obtain ⟨-, g2, -, -⟩ :=
    runPool_inv mode total sched (Pool.init concurrency) (poolInit_inv concurrency total)
  obtain ⟨r, hr, -⟩ := report_isSome _ durationSec realDuration g2
  refine ⟨r, hr, ?_⟩
  unfold Run
  simp only [hsc, hrate, if_false, hfin, if_true, hr]

/-- A rate above `10 ^ 9` makes the ticker interval `time.Second / time.Duration(rate)` zero:
`Run` panics in `time.NewTicker`, before any request is sent. -/
theorem Run_ticker_panic (rate concurrency total : ℤ) (duration : time.Duration) (quiet : Bool)
    (sched : List Event) (durationSec : ℚ) (realDuration : time.Duration) (mode : StopMode)
    (hsc : stopCondition duration total = .ok mode) (hrate : 1000000000 < rate) :
    Run rate concurrency duration total quiet sched durationSec realDuration =
      (0, some (.error .nonPositiveTickerInterval)) := by
  have h0 : Int.tdiv time.Second rate = 0 := by
    unfold time.Second
    rw [Int.tdiv_eq_ediv (by norm_num) (by omega)]
    exact Int.ediv_eq_zero_of_lt (by norm_num) hrate
  unfold Run
  simp only [hsc]
  rw [if_pos ⟨by omega, by rw [h0]⟩]

/-- Without workers and without a duration nothing ever cancels the context: whatever the
schedule, `Run` has not returned. -/
theorem Run_blocks_without_workers (rate concurrency total : ℤ) (duration : time.Duration)
    (quiet : Bool) (sched : List Event) (durationSec : ℚ) (realDuration : time.Duration)
    (hsc : stopCondition duration total = .ok .withCancel)
    (hrate : ¬ (rate > 0 ∧ Int.tdiv time.Second rate ≤ 0)) (hc : concurrency ≤ 0) :
    Run rate concurrency duration total quiet sched durationSec realDuration = (0, none) := by
  have hinit : Pool.init concurrency =
      { shared := Shared.init, cancelled := false, workers := [], dispatched := 0 } := by
    unfold Pool.init
    rw [Int.toNat_of_nonpos hc]
    rfl
  have hstep : ∀ ev : Event, step .withCancel total
      { shared := Shared.init, cancelled := false, workers := [], dispatched := 0 } ev =
      { shared := Shared.init, cancelled := false, workers := [], dispatched := 0 } := by
    intro ev
    cases ev <;> simp [step]
  have hrun : runPool .withCancel total (Pool.init concurrency) sched =
      { shared := Shared.init, cancelled := false, workers := [], dispatched := 0 } := by
    rw [hinit]
    induction sched with
    | nil => rfl
    | cons ev sched ih =>
      show runPool .withCancel total (step .withCancel total _ ev) sched = _
      rw [hstep ev]
      exact ih
  unfold Run
  simp only [hsc, hrate, if_false, hrun, Pool.finished, Bool.false_and, Bool.false_eq_true]

/-- C3. In every state reached from the empty aggregator by recording outcomes,
`totalReqs = success + failed`; the statistics block returns a result for it, with
`TotalRequests = Successful + Failed`; every result returned by `Run` has
`TotalRequests = Successful + Failed`; and `Run` does return such a result whenever it passes
the stop-condition check and the ticker construction and its schedule ends with the context
done and every worker returned. -/
theorem total_eq_success_add_failed (outs : List target.Result) (durationSec : ℚ)
    (realDuration : time.Duration) (rate concurrency total : ℤ) (duration : time.Duration)
    (quiet : Bool) (sched : List Event) :
    (recordAll Shared.init outs).totalReqs =
        (recordAll Shared.init outs).success + (recordAll Shared.init outs).failed ∧
      (∃ r : Result, report (recordAll Shared.init outs) durationSec realDuration = some r ∧
        r.TotalRequests = r.Successful + r.Failed) ∧
      (∀ (k : ℕ) (r : Result),
        Run rate concurrency duration total quiet sched durationSec realDuration =
          (k, some (.ok r)) → r.TotalRequests = r.Successful + r.Failed) ∧
      (∀ mode : StopMode, stopCondition duration total = .ok mode →
        ¬ (rate > 0 ∧ Int.tdiv time.Second rate ≤ 0) →
        (runPool mode total (Pool.init concurrency) sched).finished = true →
        ∃ (k : ℕ) (r : Result),
          Run rate concurrency duration total quiet sched durationSec realDuration =
            (k, some (.ok r)) ∧ r.TotalRequests = r.Successful + r.Failed) := by
  obtain ⟨h1, h2⟩ := recordAll_inv outs Shared.init init_inv
  have key : ∀ (k : ℕ) (r : Result),
      Run rate concurrency duration total quiet sched durationSec realDuration =
        (k, some (.ok r)) → r.TotalRequests = r.Successful + r.Failed := by
    intro k r hrun
    unfold Run at hrun
    cases hsc : stopCondition duration total with
    | error e =>
      rw [hsc] at hrun
      simp at hrun
    | ok mode =>
      rw [hsc] at hrun
      simp only at hrun
      obtain ⟨g1, g2, -, -⟩ :=
        runPool_inv mode total sched (Pool.init concurrency) (poolInit_inv concurrency total)
      obtain ⟨r', hr', a, b, c, -⟩ := report_isSome _ durationSec realDuration g2
      rw [hr'] at hrun
      split_ifs at hrun
      · simp at hrun
      · simp only [Prod.mk.injEq, Option.some.injEq, Except.ok.injEq] at hrun
        rw [← hrun.2, a, b, c]
        exact g1
      · simp at hrun
  refine ⟨h1, ?_, key, ?_⟩
  · obtain ⟨r, hr, a, b, c, -⟩ := report_isSome _ durationSec realDuration h2
    exact ⟨r, hr, by rw [a, b, c]; exact h1⟩
  · intro mode hsc hrate hfin
    obtain ⟨r, -, hr⟩ := Run_of_finished rate concurrency total duration quiet sched
      durationSec realDuration mode hsc hrate hfin
    exact ⟨_, r, hr, key _ r hr⟩

theorem total_eq_success_add_failed_witness :
    stopCondition 0 1 = .ok .withCancel ∧
    (runPool .withCancel 1 (Pool.init 1)
      [.budget 0, .complete 0 (some { Success := true, StatusCode := 200, Latency := 5000000 }),
       .budget 0]).finished = true ∧
    ∃ (k : ℕ) (r : Result),
      Run 0 1 0 1 true
        [.budget 0, .complete 0 (some { Success := true, StatusCode := 200, Latency := 5000000 }),
         .budget 0] 1 1000000000 = (k, some (.ok r)) ∧
      r.TotalRequests = r.Successful + r.Failed :=
  ⟨rfl, by decide, (total_eq_success_add_failed [] 1 1000000000 0 1 1 0 true
    [.budget 0, .complete 0 (some { Success := true, StatusCode := 200, Latency := 5000000 }),
     .budget 0]).2.2.2 .withCancel rfl (by decide) (by decide)⟩

theorem report_congr (s₁ s₂ : Shared) (durationSec : ℚ) (realDuration : time.Duration)
    (h1 : s₁.totalReqs = s₂.totalReqs) (h2 : s₁.success = s₂.success)
    (h3 : s₁.failed = s₂.failed) (h4 : sortSlice s₁.latencies = sortSlice s₂.latencies) :
    report s₁ durationSec realDuration = report s₂ durationSec realDuration := by
  simp only [report, h1, h2, h3, h4]

/-- The body of `printProgress` once its four reads of the sorted sample are known. -/
theorem printProgress_of_reads (sinceStart : ℚ) (total success failed : ℤ)
    (latencies : List time.Duration) (workersReady totalWorkers : ℤ)
    (d0 dmax d95 d99 : time.Duration) (hpos : 0 < total)
    (h0 : index (sortSlice latencies) 0 = some d0)
    (hmax : index (sortSlice latencies) (((sortSlice latencies).length : ℤ) - 1) = some dmax)
    (h95 : index (sortSlice latencies)
        (if f64ToInt (f64mul (f64OfInt ((sortSlice latencies).length : ℤ)) lit95) ≥
            ((sortSlice latencies).length : ℤ) then ((sortSlice latencies).length : ℤ) - 1
          else f64ToInt (f64mul (f64OfInt ((sortSlice latencies).length : ℤ)) lit95)) = some d95)
    (h99 : index (sortSlice latencies)
        (if f64ToInt (f64mul (f64OfInt ((sortSlice latencies).length : ℤ)) lit99) ≥
            ((sortSlice latencies).length : ℤ) then ((sortSlice latencies).length : ℤ) - 1
          else f64ToInt (f64mul (f64OfInt ((sortSlice latencies).length : ℤ)) lit99)) = some d99) :
    printProgress sinceStart total success failed latencies workersReady totalWorkers = some
      { workersReady := workersReady, totalWorkers := totalWorkers,
        currentRPS := f64div (f64OfInt success) (if sinceStart < lit1 then lit1 else sinceStart),
        total := total,
        successRate := f64div (f64OfInt success) (f64OfInt total),
        failed := failed,
        avg := f64div
          ((sortSlice latencies).foldl
            (fun sum d => f64add sum (f64OfInt (time.Milliseconds d))) 0)
          (f64OfInt ((sortSlice latencies).length : ℤ)),
        min := time.Milliseconds d0, max := time.Milliseconds dmax,
        p95 := f64OfInt (time.Milliseconds d95), p99 := f64OfInt (time.Milliseconds d99) } := by
  have hne : ¬ total = 0 := by omega
  unfold printProgress
  simp only [gt_iff_lt, hpos, hne, if_true, if_false, h0, hmax, h95, h99, Option.bind,
    ge_iff_le]

theorem printProgress_of_zero (sinceStart : ℚ) (total success failed : ℤ)
    (latencies : List time.Duration) (workersReady totalWorkers : ℤ) (hz : total = 0) :
    printProgress sinceStart total success failed latencies workersReady totalWorkers = some
      { workersReady := workersReady, totalWorkers := totalWorkers,
        currentRPS := f64div (f64OfInt success) (if sinceStart < lit1 then lit1 else sinceStart),
        total := total, successRate := 0, failed := failed,
        avg := 0, min := 0, max := 0, p95 := 0, p99 := 0 } := by
  have hpos : ¬ 0 < total := by omega
  unfold printProgress
  simp only [gt_iff_lt, hpos, hz, if_true, if_false]
  simp

/-- The function `printProgress` never panics on a snapshot whose sample has `total`
elements. -/
theorem printProgress_isSome (sinceStart : ℚ) (total success failed : ℤ)
    (latencies : List time.Duration) (workersReady totalWorkers : ℤ)
    (hlen : (latencies.length : ℤ) = total) :
    ∃ p : ProgressLine,
      printProgress sinceStart total success failed latencies workersReady totalWorkers =
        some p ∧
      p.currentRPS = f64div (f64OfInt success) (if sinceStart < lit1 then lit1 else sinceStart) := by
  by_cases hpos : 0 < total
  · obtain ⟨d0, dmax, d95, d99, h0, hmax, h95, h99, -⟩ := reads_ok latencies (by omega)
    exact ⟨_, printProgress_of_reads sinceStart total success failed latencies workersReady
      totalWorkers d0 dmax d95 d99 hpos h0 hmax h95 h99, rfl⟩
  · exact ⟨_, printProgress_of_zero sinceStart total success failed latencies workersReady
      totalWorkers (by omega), rfl⟩

/-- C10. In every state reached from the empty aggregator by recording outcomes the sample has
`totalReqs` elements; hence, when `totalReqs > 0`, the indices `0`, `n - 1`, `p95Idx` and
`p99Idx` used on the sorted sample (with `n` its length) are within bounds, and neither the
statistics block of `Run` nor `printProgress` reaches the out-of-range panic. -/
theorem indices_in_bounds (outs : List target.Result) :
    ((recordAll Shared.init outs).latencies.length : ℤ) = (recordAll Shared.init outs).totalReqs ∧
    (0 < (recordAll Shared.init outs).totalReqs →
      ∀ n : ℤ, n = ((recordAll Shared.init outs).latencies.length : ℤ) →
        ((sortSlice (recordAll Shared.init outs).latencies).length : ℤ) = n ∧
        ((0:ℤ) ≤ 0 ∧ 0 < n) ∧ (0 ≤ n - 1 ∧ n - 1 < n) ∧
        (0 ≤ (if f64ToInt (f64mul (f64OfInt n) lit95) ≥ n then n - 1
              else f64ToInt (f64mul (f64OfInt n) lit95)) ∧
          (if f64ToInt (f64mul (f64OfInt n) lit95) ≥ n then n - 1
              else f64ToInt (f64mul (f64OfInt n) lit95)) < n) ∧
        (0 ≤ (if f64ToInt (f64mul (f64OfInt n) lit99) ≥ n then n - 1
              else f64ToInt (f64mul (f64OfInt n) lit99)) ∧
          (if f64ToInt (f64mul (f64OfInt n) lit99) ≥ n then n - 1
              else f64ToInt (f64mul (f64OfInt n) lit99)) < n) ∧
        (∀ (durationSec : ℚ) (realDuration : time.Duration),
          (report (recordAll Shared.init outs) durationSec realDuration).isSome = true) ∧
        (∀ (sinceStart : ℚ) (workersReady totalWorkers : ℤ),
          (printProgress sinceStart (recordAll Shared.init outs).totalReqs
            (recordAll Shared.init outs).success (recordAll Shared.init outs).failed
            (recordAll Shared.init outs).latencies workersReady totalWorkers).isSome = true)) := by
  obtain ⟨-, h2⟩ := recordAll_inv outs Shared.init init_inv
  refine ⟨h2, ?_⟩
  intro hpos n hn
  have hn0 : 0 < n := by omega
  refine ⟨by rw [sortSlice_length, hn], ⟨le_rfl, hn0⟩, ⟨by omega, by omega⟩,
    clamp_bounds n hn0 lit95 lit95_nonneg,
    clamp_bounds n hn0 lit99 (lit95_nonneg.trans lit95_le_lit99), ?_, ?_⟩
  · intro t D
    obtain ⟨r, hr, -⟩ := report_isSome (recordAll Shared.init outs) t D h2
    rw [hr]; rfl
  · intro t w c
    obtain ⟨p, hp, -⟩ := printProgress_isSome t _ (recordAll Shared.init outs).success
      (recordAll Shared.init outs).failed _ w c h2
    rw [hp]; rfl

theorem indices_in_bounds_witness :
    0 < (recordAll Shared.init [{ Success := true, StatusCode := 200, Latency := 5000000 }]).totalReqs ∧
    ∀ (durationSec : ℚ) (realDuration : time.Duration),
      (report (recordAll Shared.init [{ Success := true, StatusCode := 200, Latency := 5000000 }])
        durationSec realDuration).isSome = true :=
  ⟨by decide, ((indices_in_bounds
    [{ Success := true, StatusCode := 200, Latency := 5000000 }]).2 (by decide) 1
      (by decide)).2.2.2.2.2.1⟩

/-- C8. Two sequences of outcomes that are permutations of each other, recorded into the empty
aggregator, give the same result of the statistics block: every field of the two results is
the same. -/
theorem report_order_independent (outs₁ outs₂ : List target.Result) (h : outs₁.Perm outs₂)
    (durationSec : ℚ) (realDuration : time.Duration) :
    ∃ r : Result,
      report (recordAll Shared.init outs₁) durationSec realDuration = some r ∧
      report (recordAll Shared.init outs₂) durationSec realDuration = some r := by
  obtain ⟨a1, b1, c1, d1, -⟩ := recordAll_fields outs₁ Shared.init
  obtain ⟨a2, b2, c2, d2, -⟩ := recordAll_fields outs₂ Shared.init
  obtain ⟨-, hl⟩ := recordAll_inv outs₁ Shared.init init_inv
  obtain ⟨r, hr, -⟩ := report_isSome (recordAll Shared.init outs₁) durationSec realDuration hl
  refine ⟨r, hr, ?_⟩
  rw [← hr]
  symm
  apply report_congr
  · rw [a1, a2, h.length_eq]
  · rw [b1, b2, (h.filter _).length_eq]
  · rw [c1, c2, (h.filter _).length_eq]
  · rw [d1, d2]
    exact sortSlice_congr ((h.map _).append_left _)

theorem report_order_independent_witness :
    ([{ Success := true, StatusCode := 200, Latency := 7000000 },
      { Success := false, StatusCode := 500, Latency := 3000000 }] : List target.Result).Perm
      [{ Success := false, StatusCode := 500, Latency := 3000000 },
       { Success := true, StatusCode := 200, Latency := 7000000 }] ∧
    ∃ r : Result,
      report (recordAll Shared.init
        [{ Success := true, StatusCode := 200, Latency := 7000000 },
         { Success := false, StatusCode := 500, Latency := 3000000 }]) 1 1000000000 = some r ∧
      report (recordAll Shared.init
        [{ Success := false, StatusCode := 500, Latency := 3000000 },
         { Success := true, StatusCode := 200, Latency := 7000000 }]) 1 1000000000 = some r :=
  ⟨by decide, report_order_independent _ _ (by decide) 1 1000000000⟩

theorem f64OfInt_ms_exact (d : ℤ) (h : -2 ^ 63 ≤ d ∧ d < 2 ^ 63) :
    f64OfInt (time.Milliseconds d) = ((time.Milliseconds d : ℤ) : ℚ) := by
  apply f64OfInt_eq
  rw [time.Milliseconds_eq]
  obtain ⟨h1, h2⟩ := h
  norm_num at h1 h2 ⊢
  split_ifs with hd
  · rw [abs_of_nonneg (by omega)]; omega
  · rw [abs_of_nonpos (by omega)]; omega

theorem mem_of_index {l : List time.Duration} {i : ℤ} {d : time.Duration}
    (h : index (sortSlice l) i = some d) : d ∈ l := by
  rw [index_eq_some_iff] at h
  exact (sortSlice_perm l).mem_iff.1 (List.get?_mem h.2.2)

/-- C9 (amended). For a snapshot whose sample has `total` elements (durations in the int64
range) `printProgress` computes the success rate, the average, the minimum, the maximum and
the two percentiles exactly as the statistics block of `Run` does on the same snapshot (all
`0` when `total = 0`). Its RPS figure divides by the elapsed time clamped below at one second:
when every recorded request succeeded it is `total / max(t, 1)`, which is the RPS of the final
report as soon as `t ≥ 1`. -/
theorem printProgress_matches_report (total success failed : ℤ)
    (latencies : List time.Duration) (t : ℚ) (realDuration : time.Duration)
    (workersReady totalWorkers sentCount : ℤ)
    (hlen : (latencies.length : ℤ) = total)
    (hrange : ∀ d ∈ latencies, -2 ^ 63 ≤ d ∧ d < 2 ^ 63) :
    ∃ (p : ProgressLine) (r : Result),
      printProgress t total success failed latencies workersReady totalWorkers = some p ∧
      report { totalReqs := total, success := success, failed := failed,
               latencies := latencies, sentCount := sentCount } t realDuration = some r ∧
      p.successRate = r.SuccessRate ∧ p.avg = r.AvgLatencyMs ∧
      (p.min : ℚ) = r.MinLatencyMs ∧ (p.max : ℚ) = r.MaxLatencyMs ∧
      p.p95 = r.P95LatencyMs ∧ p.p99 = r.P99LatencyMs ∧
      (success = total → p.currentRPS = f64div (f64OfInt total) (max t 1)) ∧
      (success = total → 1 ≤ t → p.currentRPS = r.RPS) := by
  have hmax : (if t < lit1 then lit1 else t) = max t 1 := by
    unfold lit1
    split_ifs with h
    · exact (max_eq_right h.le).symm
    · exact (max_eq_left (not_lt.1 h)).symm
  by_cases hpos : 0 < total
  · obtain ⟨d0, dmax, d95, d99, h0, hmx, h95, h99, -⟩ := reads_ok latencies (by omega)
    refine ⟨_, _, printProgress_of_reads t total success failed latencies workersReady
        totalWorkers d0 dmax d95 d99 hpos h0 hmx h95 h99,
      report_of_reads
        { totalReqs := total, success := success, failed := failed,
          latencies := latencies, sentCount := sentCount } t realDuration
        d0 dmax d95 d99 hpos h0 hmx h95 h99, rfl, rfl, ?_, ?_, rfl, rfl, ?_, ?_⟩
    · exact (f64OfInt_ms_exact d0 (hrange d0 (mem_of_index h0))).symm
    · exact (f64OfInt_ms_exact dmax (hrange dmax (mem_of_index hmx))).symm
    · intro hs
      simp only [hmax, hs]
    · intro hs ht
      simp only [hmax, hs, max_eq_left ht]
  · refine ⟨_, _, printProgress_of_zero t total success failed latencies workersReady
        totalWorkers (by omega),
      report_of_zero
        { totalReqs := total, success := success, failed := failed,
          latencies := latencies, sentCount := sentCount } t realDuration hpos,
      rfl, rfl, ?_, ?_, rfl, rfl, ?_, ?_⟩
    · simp
    · simp
    · intro hs
      simp only [hmax, hs]
    · intro hs ht
      simp only [hmax, hs, max_eq_left ht]

theorem printProgress_matches_report_witness :
    (([4000000, 6000000] : List time.Duration).length : ℤ) = 2 ∧
    ∃ (p : ProgressLine) (r : Result),
      printProgress 3 2 2 0 [4000000, 6000000] 1 1 = some p ∧
      report { totalReqs := 2, success := 2, failed := 0,
               latencies := [4000000, 6000000], sentCount := 2 } 3 3000000000 = some r ∧
      p.successRate = r.SuccessRate ∧ p.avg = r.AvgLatencyMs ∧
      (p.min : ℚ) = r.MinLatencyMs ∧ (p.max : ℚ) = r.MaxLatencyMs ∧
      p.p95 = r.P95LatencyMs ∧ p.p99 = r.P99LatencyMs ∧ p.currentRPS = r.RPS := by
  refine ⟨by decide, ?_⟩
  obtain ⟨p, r, h1, h2, h3, h4, h5, h6, h7, h8, -, h10⟩ :=
    printProgress_matches_report 2 2 0 [4000000, 6000000] 3 3000000000 1 1 2
      (by decide) (by decide)
  exact ⟨p, r, h1, h2, h3, h4, h5, h6, h7, h8, h10 rfl (by norm_num)⟩

/-- C9, counterexample. The RPS figure of `printProgress` is not `total / t`. After half a
second with one successful request it is `1` where the final formula gives `2` (the elapsed
time is clamped to one second); after two seconds with four requests of which two failed it is
`1` where the final formula gives `2` (the numerator is the success count). -/
theorem printProgress_rps_differs :
    (∃ (p : ProgressLine) (r : Result),
      printProgress (1 / 2) 1 1 0 [5000000] 1 1 = some p ∧
      report { totalReqs := 1, success := 1, failed := 0, latencies := [5000000],
               sentCount := 1 } (1 / 2) 500000000 = some r ∧
      p.currentRPS = 1 ∧ r.RPS = 2 ∧ p.currentRPS ≠ r.RPS) ∧
    (∃ (p : ProgressLine) (r : Result),
      printProgress 2 4 2 2 [5000000, 5000000, 5000000, 5000000] 1 1 = some p ∧
      report { totalReqs := 4, success := 2, failed := 2,
               latencies := [5000000, 5000000, 5000000, 5000000], sentCount := 4 }
        2 2000000000 = some r ∧
      p.currentRPS = 1 ∧ r.RPS = 2 ∧ p.currentRPS ≠ r.RPS) := by
  have r1 : roundF64 1 = 1 := by simpa using roundF64_intCast 1 (by decide)
  have r2 : roundF64 2 = 2 := by simpa using roundF64_intCast 2 (by decide)
  have r4 : roundF64 4 = 4 := by simpa using roundF64_intCast 4 (by decide)
  constructor
  · obtain ⟨p, hp, hp'⟩ := printProgress_isSome (1 / 2) 1 1 0 [5000000] 1 1 (by decide)
    obtain ⟨r, hr, -, -, -, hr'⟩ := report_isSome
      { totalReqs := 1, success := 1, failed := 0, latencies := [5000000], sentCount := 1 }
      (1 / 2) 500000000 (by decide)
    have e1 : p.currentRPS = 1 := by
      rw [hp']
      simp only [f64div, f64OfInt, lit1]
      norm_num [r1]
    have e2 : r.RPS = 2 := by
      rw [hr']
      simp only [f64div, f64OfInt]
      norm_num [r1, r2]
    exact ⟨p, r, hp, hr, e1, e2, by rw [e1, e2]; norm_num⟩
  · obtain ⟨p, hp, hp'⟩ := printProgress_isSome 2 4 2 2
      [5000000, 5000000, 5000000, 5000000] 1 1 (by decide)
    obtain ⟨r, hr, -, -, -, hr'⟩ := report_isSome
      { totalReqs := 4, success := 2, failed := 2,
        latencies := [5000000, 5000000, 5000000, 5000000], sentCount := 4 }
      2 2000000000 (by decide)
    have e1 : p.currentRPS = 1 := by
      rw [hp']
      simp only [f64div, f64OfInt, lit1]
      norm_num [r1, r2]
    have e2 : r.RPS = 2 := by
      rw [hr']
      simp only [f64div, f64OfInt]
      norm_num [r2, r4]
    exact ⟨p, r, hp, hr, e1, e2, by rw [e1, e2]; norm_num⟩

end runner

/-! ## Theorems on package app -/

namespace app

open runner

/-- C5. The function `validateConfig` returns an error exactly when the URL is empty, or
`Rate < 0`, or `Concurrency ≤ 0`, or (`Duration ≤ 0` and `Total ≤ 0`), or `Timeout ≤ 0`; for
every other configuration it returns nil. -/
theorem validateConfig_error_iff (cfg : config.Config) :
    ((∃ e, validateConfig cfg = some e) ↔
      (cfg.URL = [] ∨ cfg.Rate < 0 ∨ cfg.Concurrency ≤ 0 ∨
        (cfg.Duration ≤ 0 ∧ cfg.Total ≤ 0) ∨ cfg.Timeout ≤ 0)) ∧
    (validateConfig cfg = none ↔
      ¬ (cfg.URL = [] ∨ cfg.Rate < 0 ∨ cfg.Concurrency ≤ 0 ∨
        (cfg.Duration ≤ 0 ∧ cfg.Total ≤ 0) ∨ cfg.Timeout ≤ 0)) := by
  unfold validateConfig
  by_cases h1 : cfg.URL = []
  · simp [h1]
  by_cases h2 : cfg.Rate < 0
  · simp [h1, h2]
  by_cases h3 : cfg.Concurrency ≤ 0
  · simp [h1, h2, h3]
  by_cases h4 : cfg.Duration ≤ 0 ∧ cfg.Total ≤ 0
  · simp [h1, h2, h3, h4]
  by_cases h5 : cfg.Timeout ≤ 0
  · simp [h1, h2, h3, h4, h5]
  · simp [h1, h2, h3, h4, h5]

/-- C7, counterexample. A configuration with both a positive duration and a positive total is
accepted by `validateConfig` and by the stop-condition check of `Run`, and the run sends a
request. -/
theorem both_positive_accepted :
    validateConfig
      { URL := ['u'], Method := [], Body := [], BodyFile := [], Headers := [], Rate := 0,
        Concurrency := 1, Duration := 1000000000, Total := 1, Timeout := 1000000000,
        Output := [], Quiet := true, DisableKeepalive := false } = none ∧
    stopCondition 1000000000 1 = .ok (.withTimeout 1000000000) ∧
    (runPool (.withTimeout 1000000000) 1 (Pool.init 1) [.budget 0]).dispatched = 1 :=
  ⟨by decide, rfl, by decide⟩

/-- C7 (amended). A run starts only when at least one of the duration `D` and the total
budget `N` is positive. A configuration with neither positive is rejected by `validateConfig`
(when it passes the earlier checks, with the duration-or-total error) and by the stop-condition
check of `Run`, which returns its error with no request sent. A configuration with both
positive is accepted by the stop-condition check, which arms the duration timer, and
`validateConfig` rejects it only for its URL, rate, concurrency or timeout. -/
theorem stop_condition_validation (cfg : config.Config) :
    (cfg.Duration ≤ 0 ∧ cfg.Total ≤ 0 →
      (∃ e, validateConfig cfg = some e) ∧
      (cfg.URL ≠ [] → 0 ≤ cfg.Rate → 0 < cfg.Concurrency →
        validateConfig cfg = some .durationOrTotalRequired) ∧
      stopCondition cfg.Duration cfg.Total = .error .noStopCondition ∧
      ∀ (rate concurrency : ℤ) (quiet : Bool) (sched : List Event) (durationSec : ℚ)
        (realDuration : time.Duration),
        Run rate concurrency cfg.Duration cfg.Total quiet sched durationSec realDuration =
          (0, some (.error .noStopCondition))) ∧
    (0 < cfg.Duration ∧ 0 < cfg.Total →
      stopCondition cfg.Duration cfg.Total = .ok (.withTimeout cfg.Duration) ∧
      (validateConfig cfg = none ↔
        cfg.URL ≠ [] ∧ 0 ≤ cfg.Rate ∧ 0 < cfg.Concurrency ∧ 0 < cfg.Timeout)) := by
  constructor
  · rintro ⟨hd, ht⟩
    have hd' : ¬ ((cfg.Duration : ℤ) > 0) := not_lt.2 hd
    have ht' : ¬ (cfg.Total > 0) := not_lt.2 ht
    have hsc : stopCondition cfg.Duration cfg.Total = .error .noStopCondition := by
      unfold stopCondition
      rw [if_neg hd', if_neg ht']
    refine ⟨?_, ?_, hsc, ?_⟩
    · unfold validateConfig
      split_ifs with h1 h2 h3 h4 h5
      · exact ⟨_, rfl⟩
      · exact ⟨_, rfl⟩
      · exact ⟨_, rfl⟩
      · exact ⟨_, rfl⟩
      · exact ⟨_, rfl⟩
      · exact absurd ⟨hd, ht⟩ h4
    · intro h1 h2 h3
      unfold validateConfig
      rw [if_neg h1, if_neg (not_lt.2 h2), if_neg (not_le.2 h3), if_pos ⟨hd, ht⟩]
    · intro rate concurrency quiet sched durationSec realDuration
      unfold Run
      rw [hsc]
  · rintro ⟨hd, ht⟩
    constructor
    · unfold stopCondition
      rw [if_pos hd]
    · have h4 : ¬ (cfg.Duration ≤ 0 ∧ cfg.Total ≤ 0) := fun h => absurd h.1 (not_le.2 hd)
      unfold validateConfig
      by_cases h1 : cfg.URL = []
      · simp [h1]
      by_cases h2 : cfg.Rate < 0
      · simp [h1, h2]
      by_cases h3 : cfg.Concurrency ≤ 0
      · simp [h1, h2, h3]
      by_cases h5 : cfg.Timeout ≤ 0
      · simp [h1, h2, h3, h4, h5]
      · simp only [h1, h2, h3, h4, h5, if_false, true_iff, ne_eq, not_false_eq_true, true_and]
        exact ⟨not_lt.1 h2, not_le.1 h3, not_le.1 h5⟩

theorem stop_condition_validation_witness :
    ((0 : ℤ) ≤ 0 ∧ (0 : ℤ) ≤ 0) ∧
    ∀ sched : List Event, Run 0 1 0 0 true sched 1 0 = (0, some (.error .noStopCondition)) :=
  ⟨by decide, fun sched => ((stop_condition_validation
    { URL := ['u'], Method := [], Body := [], BodyFile := [], Headers := [], Rate := 0,
      Concurrency := 1, Duration := 0, Total := 0, Timeout := 1000000000,
      Output := [], Quiet := true, DisableKeepalive := false }).1 (by decide)).2.2.2
    0 1 true sched 1 0⟩

end app

/-! ## Lemmas and theorems on package target -/

theorem mapGet_mapSet (m : List (Str × Str)) (k v k' : Str) :
    mapGet (mapSet m k v) k' = if k = k' then some v else mapGet m k' := by
  induction m with
  | nil => simp [mapSet, mapGet]
  | cons kv m ih =>
    obtain ⟨k0, v0⟩ := kv
    by_cases h0 : k0 = k
    · subst h0
      simp only [mapSet, if_true, mapGet]
      split_ifs <;> rfl
    · simp only [mapSet, h0, if_false, mapGet, ih]
      by_cases h1 : k0 = k'
      · subst h1
        have : ¬ k = k0 := fun h => h0 h.symm
        simp [this]
      · simp [h1]

theorem mem_keys_mapSet (m : List (Str × Str)) (k v k' : Str) :
    k' ∈ (mapSet m k v).map Prod.fst ↔ k' = k ∨ k' ∈ m.map Prod.fst := by
  induction m with
  | nil => simp [mapSet]
  | cons kv m ih =>
    obtain ⟨k0, v0⟩ := kv
    by_cases h0 : k0 = k
    · subst h0
      simp [mapSet]
    · simp only [mapSet, h0, if_false, List.map_cons, List.mem_cons, ih]
      tauto

theorem nodup_keys_mapSet (m : List (Str × Str)) (k v : Str)
    (h : (m.map Prod.fst).Nodup) : ((mapSet m k v).map Prod.fst).Nodup := by
  induction m with
  | nil => simp [mapSet]
  | cons kv m ih =>
    obtain ⟨k0, v0⟩ := kv
    simp only [List.map_cons, List.nodup_cons] at h
    by_cases h0 : k0 = k
    · subst h0
      simp only [mapSet, if_true, List.map_cons, List.nodup_cons]
      exact h
    · simp only [mapSet, h0, if_false, List.map_cons, List.nodup_cons, mem_keys_mapSet]
      exact ⟨fun hh => hh.elim False.elim h.1, ih h.2⟩

namespace strings

theorem takeWhile_ne_append (pre post : Str) (c : Char) (h : c ∉ pre) :
    (pre ++ c :: post).takeWhile (fun x => x != c) = pre ∧
      (pre ++ c :: post).dropWhile (fun x => x != c) = c :: post := by
  induction pre with
  | nil => simp [List.takeWhile, List.dropWhile]
  | cons a pre ih =>
    simp only [List.mem_cons, not_or] at h
    have ha : (a != c) = true := by simpa using fun e => h.1 e.symm
    simp only [List.cons_append, List.takeWhile_cons, List.dropWhile_cons, ha, if_true]
    exact ⟨by rw [(ih h.2).1], (ih h.2).2⟩

theorem exists_split_of_mem (s : Str) (c : Char) (h : c ∈ s) :
    ∃ pre post : Str, s = pre ++ c :: post ∧ c ∉ pre := by
  induction s with
  | nil => cases h
  | cons a s ih =>
    by_cases ha : a = c
    · exact ⟨[], s, by simp [ha], by simp⟩
    · have : c ∈ s := by
        rcases List.mem_cons.1 h with h | h
        · exact absurd h.symm ha
        · exact h
      obtain ⟨pre, post, e, hp⟩ := ih this
      refine ⟨a :: pre, post, by simp [e], ?_⟩
      simp only [List.mem_cons, not_or]
      exact ⟨fun e => ha e.symm, hp⟩

theorem SplitN2_of_not_mem (s : Str) (c : Char) (h : c ∉ s) : SplitN2 s c = [s] := by
  simp [SplitN2, h]

theorem SplitN2_of_split (pre post : Str) (c : Char) (h : c ∉ pre) :
    SplitN2 (pre ++ c :: post) c = [pre, post] := by
  have hm : c ∈ pre ++ c :: post := by simp
  obtain ⟨h1, h2⟩ := takeWhile_ne_append pre post c h
  simp only [SplitN2, hm, if_true, h1, h2, List.drop_one, List.tail_cons]

theorem dropWhile_of_head (p : Char → Bool) (t : Str)
    (h : ∀ c, t.head? = some c → p c = false) : t.dropWhile p = t := by
  cases t with
  | nil => rfl
  | cons a t =>
    have := h a rfl
    simp [List.dropWhile_cons, this]

theorem head?_append_of_ne_nil (t r : Str) (h : t ≠ []) : (t ++ r).head? = t.head? := by
  cases t with
  | nil => exact absurd rfl h
  | cons a t => rfl

/-- The result of `TrimSpace` is its argument without the leading and trailing white space. -/
theorem TrimSpace_isTrimOf (s : Str) : IsTrimOf s (TrimSpace s) := by
  have h2 := List.takeWhile_append_dropWhile isSpace (s.dropWhile isSpace).reverse
  have h3 : s.dropWhile isSpace =
      ((s.dropWhile isSpace).reverse.dropWhile isSpace).reverse ++
        ((s.dropWhile isSpace).reverse.takeWhile isSpace).reverse := by
    rw [← List.reverse_append, h2, List.reverse_reverse]
  refine ⟨s.takeWhile isSpace, (((s.dropWhile isSpace).reverse).takeWhile isSpace).reverse,
    ?_, ?_, ?_, ?_, ?_⟩
  · unfold TrimSpace
    rw [List.append_assoc, ← h3, List.takeWhile_append_dropWhile]
  · intro c hc
    exact List.mem_takeWhile_imp hc
  · intro c hc
    exact List.mem_takeWhile_imp (List.mem_reverse.1 hc)
  · intro c hc
    unfold TrimSpace at hc
    rw [List.head?_reverse] at hc
    by_cases hn : (s.dropWhile isSpace).reverse.dropWhile isSpace = []
    · rw [hn] at hc; cases hc
    · have h4 : (s.dropWhile isSpace).head? = some c := by
        rw [h3, head?_append_of_ne_nil _ _ (by simpa using hn), List.head?_reverse]
        exact hc
      have h5 := List.head?_dropWhile_not isSpace s
      rw [h4] at h5
      simpa using h5
  · intro c hc
    unfold TrimSpace at hc
    rw [List.getLast?_reverse] at hc
    have h5 := List.head?_dropWhile_not isSpace (s.dropWhile isSpace).reverse
    rw [hc] at h5
    simpa using h5

/-- Removing the surrounding white space has one result only, the one `TrimSpace` returns. -/
theorem TrimSpace_eq_of_isTrimOf {s t : Str} (h : IsTrimOf s t) : TrimSpace s = t := by
  obtain ⟨l, r, rfl, hl, hr, hh, hlast⟩ := h
  unfold TrimSpace
  rw [List.append_assoc, List.dropWhile_append_of_pos hl]
  by_cases ht : t = []
  · subst ht
    have : ([] ++ r).dropWhile isSpace = [] := by
      rw [List.nil_append]; exact List.dropWhile_eq_nil_iff.2 hr
    rw [this]; rfl
  · have e1 : (t ++ r).dropWhile isSpace = t ++ r := by
      apply dropWhile_of_head
      intro c hc
      rw [head?_append_of_ne_nil t r ht] at hc
      exact hh c hc
    rw [e1, List.reverse_append,
      List.dropWhile_append_of_pos (fun c hc => hr c (List.mem_reverse.1 hc))]
    rw [dropWhile_of_head isSpace t.reverse (by
      intro c hc
      rw [List.head?_reverse] at hc
      exact hlast c hc)]
    exact List.reverse_reverse t

theorem split_unique (pre post pre' post' : Str) (c : Char) (h : c ∉ pre) (h' : c ∉ pre')
    (e : pre ++ c :: post = pre' ++ c :: post') : pre = pre' ∧ post = post' := by
  obtain ⟨a1, a2⟩ := takeWhile_ne_append pre post c h
  obtain ⟨b1, b2⟩ := takeWhile_ne_append pre' post' c h'
  rw [e] at a1 a2
  exact ⟨a1.symm.trans b1, by
    have := a2.symm.trans b2
    exact (List.cons.inj this).2⟩

end strings

namespace target

theorem isEntry_split (pre post k v : Str) (h : ':' ∉ pre) :
    IsEntry (pre ++ ':' :: post) k v ↔ strings.TrimSpace pre = k ∧ strings.TrimSpace post = v := by
  constructor
  · rintro ⟨pre', post', e, hp, hk, hv⟩
    obtain ⟨e1, e2⟩ := strings.split_unique pre post pre' post' ':' h hp e
    rw [e1, e2]
    exact ⟨strings.TrimSpace_eq_of_isTrimOf hk, strings.TrimSpace_eq_of_isTrimOf hv⟩
  · rintro ⟨hk, hv⟩
    exact ⟨pre, post, rfl, h, hk ▸ strings.TrimSpace_isTrimOf pre,
      hv ▸ strings.TrimSpace_isTrimOf post⟩

theorem not_isEntry_of_not_mem (h k v : Str) (hc : ':' ∉ h) : ¬ IsEntry h k v := by
  rintro ⟨pre, post, e, -⟩
  apply hc
  rw [e]
  simp

theorem parseHeaders_cons_of_not_mem (h : Str) (rest : List Str) (m : List (Str × Str))
    (hc : ':' ∉ h) : parseHeaders (h :: rest) m = .error (.invalidHeaderFormat h) := by
  simp [parseHeaders, strings.SplitN2_of_not_mem h ':' hc]

theorem parseHeaders_cons_of_split (pre post : Str) (rest : List Str) (m : List (Str × Str))
    (hc : ':' ∉ pre) :
    parseHeaders ((pre ++ ':' :: post) :: rest) m =
      if strings.TrimSpace pre = [] then .error (.emptyHeaderKey (pre ++ ':' :: post))
      else parseHeaders rest (mapSet m (strings.TrimSpace pre) (strings.TrimSpace post)) := by
  rw [parseHeaders]
  simp only [strings.SplitN2_of_split pre post ':' hc]
  simp

theorem exists_split_cons {α : Type} (P : α → Prop) (Q : List α → Prop) (a : α) (l : List α) :
    (∃ before x after, a :: l = before ++ x :: after ∧ P x ∧ Q after) ↔
      (P a ∧ Q l) ∨ ∃ before x after, l = before ++ x :: after ∧ P x ∧ Q after := by
  constructor
  · rintro ⟨before, x, after, e, hp, hq⟩
    cases before with
    | nil =>
      simp only [List.nil_append, List.cons.injEq] at e
      obtain ⟨rfl, rfl⟩ := e
      exact Or.inl ⟨hp, hq⟩
    | cons b before =>
      simp only [List.cons_append, List.cons.injEq] at e
      exact Or.inr ⟨before, x, after, e.2, hp, hq⟩
  · rintro (⟨hp, hq⟩ | ⟨before, x, after, e, hp, hq⟩)
    · exact ⟨[], a, l, rfl, hp, hq⟩
    · exact ⟨a :: before, x, after, by rw [e]; rfl, hp, hq⟩

theorem parseHeaders_error_iff (hs : List Str) (m : List (Str × Str)) :
    (∃ e, parseHeaders hs m = .error e) ↔
      ∃ h ∈ hs, ':' ∉ h ∨ ∃ v, IsEntry h [] v := by
  induction hs generalizing m with
  | nil => simp [parseHeaders]
  | cons h rest ih =>
    by_cases hc : ':' ∈ h
    · obtain ⟨pre, post, rfl, hp⟩ := strings.exists_split_of_mem h ':' hc
      rw [parseHeaders_cons_of_split pre post rest m hp]
      by_cases hk : strings.TrimSpace pre = []
      · rw [if_pos hk]
        exact ⟨fun _ => ⟨_, List.mem_cons_self _ _,
          Or.inr ⟨_, (isEntry_split pre post _ _ hp).2 ⟨hk, rfl⟩⟩⟩, fun _ => ⟨_, rfl⟩⟩
      · rw [if_neg hk, ih]
        constructor
        · rintro ⟨x, hx, hb⟩
          exact ⟨x, List.mem_cons_of_mem _ hx, hb⟩
        · rintro ⟨x, hx, hb⟩
          rcases List.mem_cons.1 hx with rfl | hx
          · rcases hb with hb | ⟨v, hb⟩
            · exact absurd hc hb
            · exact absurd ((isEntry_split pre post _ _ hp).1 hb).1 hk
          · exact ⟨x, hx, hb⟩
    · rw [parseHeaders_cons_of_not_mem h rest m hc]
      exact ⟨fun _ => ⟨h, List.mem_cons_self _ _, Or.inl hc⟩, fun _ => ⟨_, rfl⟩⟩

theorem parseHeaders_ok (hs : List Str) (m m' : List (Str × Str))
    (hm : (m.map Prod.fst).Nodup) (h : parseHeaders hs m = .ok m') :
    (m'.map Prod.fst).Nodup ∧
    ∀ k v, mapGet m' k = some v ↔
      (∃ before x after, hs = before ++ x :: after ∧ IsEntry x k v ∧
        ∀ y ∈ after, ∀ w, ¬ IsEntry y k w) ∨
      ((∀ y ∈ hs, ∀ w, ¬ IsEntry y k w) ∧ mapGet m k = some v) := by
  induction hs generalizing m with
  | nil =>
    simp only [parseHeaders, Except.ok.injEq] at h
    subst h
    refine ⟨hm, fun k v => ?_⟩
    simp
  | cons x rest ih =>
    by_cases hc : ':' ∈ x
    · obtain ⟨pre, post, rfl, hp⟩ := strings.exists_split_of_mem x ':' hc
      rw [parseHeaders_cons_of_split pre post rest m hp] at h
      by_cases hk : strings.TrimSpace pre = []
      · rw [if_pos hk] at h
        cases h
      · rw [if_neg hk] at h
        obtain ⟨hn, hg⟩ := ih _ (nodup_keys_mapSet m _ _ hm) h
        refine ⟨hn, fun k v => ?_⟩
        rw [hg k v, mapGet_mapSet,
          exists_split_cons (fun y => IsEntry y k v) (fun l => ∀ y ∈ l, ∀ w, ¬ IsEntry y k w)]
        simp only [List.forall_mem_cons, isEntry_split pre post _ _ hp]
        by_cases hkk : strings.TrimSpace pre = k
        · have hall : ¬ ∀ w : Str, ¬ (strings.TrimSpace pre = k ∧ strings.TrimSpace post = w) :=
            fun hh => hh _ ⟨hkk, rfl⟩
          simp only [hkk, if_true, true_and, Option.some.injEq]
          simp only [hkk, true_and] at hall
          constructor
          · rintro (h1 | ⟨h2, h3⟩)
            · exact Or.inl (Or.inr h1)
            · exact Or.inl (Or.inl ⟨h3, h2⟩)
          · rintro ((⟨h3, h2⟩ | h1) | ⟨⟨h4, -⟩, -⟩)
            · exact Or.inr ⟨h2, h3⟩
            · exact Or.inl h1
            · exact absurd h4 hall
        · simp only [hkk, if_false, false_and, not_false_eq_true, forall_const, true_and,
            false_or]
    · rw [parseHeaders_cons_of_not_mem x rest m hc] at h
      cases h

/-- C6. The constructor `NewHTTP` fails exactly when the URL is empty, or some header entry
has no colon, or the key of some entry (the text before its first colon, without its leading
and trailing white space) is empty. When it succeeds the header keys of the target are
distinct, each key `k` is bound to `v` exactly when the last entry of the list with key `k`
has value `v` (the text after its first colon, without its leading and trailing white space),
and an empty method has become `GET`. Keys and values are described by `IsEntry`, which states
the removal of white space as a relation between the text and its trimmed form. -/
theorem NewHTTP_spec (url method : Str) (headerSlice : List Str) (body : List Nat)
    (timeout : time.Duration) (disableKeepalive : Bool) :
    ((∃ e, NewHTTP url method headerSlice body timeout disableKeepalive = .error e) ↔
      url = [] ∨ ∃ h ∈ headerSlice, ':' ∉ h ∨ ∃ v, IsEntry h [] v) ∧
    ((∃ t, NewHTTP url method headerSlice body timeout disableKeepalive = .ok t) ↔
      ¬ (url = [] ∨ ∃ h ∈ headerSlice, ':' ∉ h ∨ ∃ v, IsEntry h [] v)) ∧
    ∀ t, NewHTTP url method headerSlice body timeout disableKeepalive = .ok t →
      t.url = url ∧
      t.method = (if method = [] then ['G', 'E', 'T'] else method) ∧
      (t.headers.map Prod.fst).Nodup ∧
      ∀ k v, mapGet t.headers k = some v ↔
        ∃ before h after, headerSlice = before ++ h :: after ∧ IsEntry h k v ∧
          ∀ h' ∈ after, ∀ v', ¬ IsEntry h' k v' := by
  have key : (∃ e, NewHTTP url method headerSlice body timeout disableKeepalive = .error e) ↔
      url = [] ∨ ∃ h ∈ headerSlice, ':' ∉ h ∨ ∃ v, IsEntry h [] v := by
    unfold NewHTTP
    by_cases hu : url = []
    · simp [hu]
    · rw [if_neg hu, ← parseHeaders_error_iff headerSlice []]
      simp only [hu, false_or]
      cases hp : parseHeaders headerSlice [] with
      | error e => simp
      | ok m => simp
  refine ⟨key, ?_, ?_⟩
  · rw [← key]
    cases hN : NewHTTP url method headerSlice body timeout disableKeepalive with
    | error e => simp
    | ok t => simp
  · intro t ht
    unfold NewHTTP at ht
    by_cases hu : url = []
    · rw [if_pos hu] at ht
      cases ht
    · rw [if_neg hu] at ht
      cases hp : parseHeaders headerSlice [] with
      | error e =>
        rw [hp] at ht
        cases ht
      | ok m =>
        rw [hp] at ht
        simp only [Except.ok.injEq] at ht
        subst ht
        obtain ⟨hn, hg⟩ := parseHeaders_ok headerSlice [] m (by simp) hp
        refine ⟨rfl, rfl, hn, fun k v => ?_⟩
        rw [hg k v]
        simp [mapGet]

theorem NewHTTP_spec_witness :
    (∃ t, NewHTTP ['u'] [] [[' ', 'a', ' ', ':', ' ', 'b', ' '], ['a', ':', 'c', ' ']] [] 1 false
        = .ok t ∧
      t.method = ['G', 'E', 'T'] ∧ t.headers = [(['a'], ['c'])] ∧
      mapGet t.headers ['a'] = some ['c']) ∧
    (∃ e, NewHTTP ['u'] [] [[' ', ':', 'v']] [] 1 false = .error e) :=
  ⟨⟨_, rfl, rfl, rfl,
    (((NewHTTP_spec ['u'] [] [[' ', 'a', ' ', ':', ' ', 'b', ' '], ['a', ':', 'c', ' ']] [] 1
        false).2.2 _ rfl).2.2.2 ['a'] ['c']).2
      ⟨[[' ', 'a', ' ', ':', ' ', 'b', ' ']], ['a', ':', 'c', ' '], [], rfl,
        (isEntry_split ['a'] ['c', ' '] _ _ (by decide)).2 ⟨by decide, by decide⟩,
        by simp⟩⟩,
   (NewHTTP_spec ['u'] [] [[' ', ':', 'v']] [] 1 false).1.2
     (Or.inr ⟨[' ', ':', 'v'], by simp,
       Or.inr ⟨['v'], (isEntry_split [' '] ['v'] _ _ (by decide)).2 ⟨by decide, by decide⟩⟩⟩)⟩

end target
